import Mathlib

/-!
# Blackjack server (`container_src/main.go`): shallow embedding

The Go program keeps one `GameState` per room in a process-wide map and mutates it
in three HTTP handlers.  The embedding below follows the source function by function.

Conventions of the embedding

* Go slices are Lean lists; `append` is `++ [x]`, `s[1:]` is the tail.
* A pointer `*Hand` into a game is a `HandRef` (which hand of the game is meant).
* The global `math/rand` source is not part of the repository.  What it hands to
  `rand.Shuffle` is modelled by `Draws` (the raw number drawn for each index of one
  shuffle), and the successive reseedings by `Entropy`, the stream of `Draws` that the
  future calls of `newDeck` will see.  Every function that may call `newDeck` takes the
  stream and returns what is left of it.
* Go `int` is `Int`.  Sums of card values are not reduced modulo `2^64`: a card of one
  of the thirteen ranks counts at most 11, so a hand would need more than `2^59` cards
  to wrap around.  The embedding agrees with the program wherever the sums stay within
  64 bits, in particular on every game whose cards are of the thirteen ranks.
* An index-out-of-range panic is the result `none`.  After such a panic the handler
  never releases the lock, so no later state of the registry is observable.
-/

namespace Blackjack

/-! ## Data model (main.go 15-40) -/

/-- Go `Card`: suit and rank, both strings. -/
structure Card where
  Suit : String
  Value : String
deriving DecidableEq, Inhabited

/-- Go `Hand`: the cards, and the two flags. -/
structure Hand where
  Cards : List Card
  Done : Bool
  Busted : Bool
deriving DecidableEq, Inhabited

/-- Go `GameState`.  `Turn` only ever receives a slice index or the constant 3. -/
structure GameState where
  Deck : List Card
  Dealer : Hand
  Players : List Hand
  Results : List String
  Turn : Nat
  Status : String
deriving DecidableEq, Inhabited

/-- Go `ActionRequest`, the decoded body of an action request. -/
structure ActionRequest where
  Player : Int
  Action : String
deriving DecidableEq

/-- The package variable `suits`. -/
def suits : List String := ["S", "H", "D", "C"]

/-- The package variable `values`. -/
def values : List String :=
  ["A", "2", "3", "4", "5", "6", "7", "8", "9", "10", "J", "Q", "K"]

/-! ## Randomness -/

/-- The raw numbers the random source produces during one `rand.Shuffle`:
`d i` is the number drawn when the loop is at index `i`. -/
abbrev Draws := Nat → Nat

/-- The stream of draws seen by the successive calls of `newDeck`. -/
abbrev Entropy := Nat → Draws

/-- The stream after one call of `newDeck` has used its head. -/
def Entropy.next (e : Entropy) : Entropy := fun k => e (k + 1)

/-! ## newDeck (main.go 42-52) -/

/-- The closure passed to `rand.Shuffle`: `deck[i], deck[j] = deck[j], deck[i]`.
Both right-hand sides are read before either element is written. -/
def swapCards (deck : List Card) (i j : Nat) : List Card :=
  match deck[i]?, deck[j]? with
  | some a, some b => (deck.set i b).set j a
  | _, _ => deck

/-- The loop of `rand.Shuffle(n, swap)`: for `i = n-1` down to `1`, pick `j` in
`[0, i]` and call `swap(i, j)`.  The argument is the current `i`. -/
def shuffleLoop (d : Draws) : Nat → List Card → List Card
  | 0, deck => deck
  | i + 1, deck => shuffleLoop d i (swapCards deck (i + 1) (d (i + 1) % (i + 2)))

/-- The deck before shuffling: the two nested `range` loops of `newDeck`. -/
def orderedDeck : List Card :=
  suits.foldl
    (fun deck suit => values.foldl (fun deck value => deck ++ [Card.mk suit value]) deck) []

/-- Go `newDeck`. -/
def newDeck (d : Draws) : List Card :=
  shuffleLoop d (orderedDeck.length - 1) orderedDeck

/-! ## handValue and isBusted (main.go 54-82) -/

/-- Value of a decimal digit character. -/
def digitVal (c : Char) : Nat := c.toNat - '0'.toNat

/-- The effect of `fmt.Sscanf(s, "%d", &v)` on `v`, which is 0 before the call:
leading blanks are skipped, an optional sign is read, then the longest run of decimal
digits and underscores; when the run is empty, holds an underscore (which
`strconv.ParseInt` refuses in base 10), or spells a number that does not fit 64 bits,
the scan fails and `v` keeps the value 0.  What follows the run is ignored. -/
def sscanfInt (s : String) : Int :=
  let cs := s.toList.dropWhile (fun c => c = ' ' || c = '\t')
  let signed : Bool × List Char :=
    match cs with
    | '-' :: r => (true, r)
    | '+' :: r => (false, r)
    | _ => (false, cs)
  let ds := signed.2.takeWhile (fun c => c.isDigit || c = '_')
  let n : Int := (ds.foldl (fun n c => 10 * n + digitVal c) 0 : Nat)
  let v : Int := if signed.1 then -n else n
  if ds = [] ∨ '_' ∈ ds then 0
  else if v < -(2 : Int) ^ 63 ∨ (2 : Int) ^ 63 ≤ v then 0
  else v

/-- One iteration of the first loop of `handValue`, on the pair `(val, aceCount)`. -/
def addCard (acc : Int × Nat) (card : Card) : Int × Nat :=
  if card.Value = "A" then (acc.1 + 11, acc.2 + 1)
  else if card.Value = "K" ∨ card.Value = "Q" ∨ card.Value = "J" then (acc.1 + 10, acc.2)
  else (acc.1 + sscanfInt card.Value, acc.2)

/-- The second loop of `handValue`: `for val > 21 && aceCount > 0`. -/
def demoteAces : Int → Nat → Bool → Int × Bool
  | val, 0, soft => (val, soft)
  | val, aceCount + 1, soft =>
    if val > 21 then demoteAces (val - 10) aceCount true else (val, soft)

/-- Go `handValue`. -/
def handValue (hand : Hand) : Int × Bool :=
  let acc := hand.Cards.foldl addCard (0, 0)
  demoteAces acc.1 acc.2 false

/-- Go `isBusted`. -/
def isBusted (hand : Hand) : Bool :=
  decide ((handValue hand).1 > 21)

/-! ## dealCard (main.go 84-91) -/

/-- A `*Hand` pointing into a game: `&gs.Dealer` or `&gs.Players[p]`. -/
inductive HandRef where
  | dealer
  | player (p : Nat)
deriving DecidableEq

/-- The statement `hand.Cards = append(hand.Cards, card)` through a pointer into `gs`. -/
def appendCard (gs : GameState) (hand : HandRef) (card : Card) : GameState :=
  match hand with
  | .dealer => { gs with Dealer := { gs.Dealer with Cards := gs.Dealer.Cards ++ [card] } }
  | .player p =>
    match gs.Players[p]? with
    | some h => { gs with Players := gs.Players.set p { h with Cards := h.Cards ++ [card] } }
    | none => gs

/-- Go `dealCard`.  An exhausted deck is replaced by a new deck, which uses up the head
of the entropy stream.  The `[]` branch of the match stands for the panic of
`gs.Deck[0]` on an empty slice; `dealCard_eq` shows that it is never taken. -/
def dealCard (e : Entropy) (gs : GameState) (hand : HandRef) : Entropy × GameState :=
  let refill : Entropy × List Card :=
    if gs.Deck.length = 0 then (e.next, newDeck (e 0)) else (e, gs.Deck)
  match refill.2 with
  | [] => (refill.1, gs)
  | card :: rest => (refill.1, appendCard { gs with Deck := rest } hand card)

/-! ## startGame (main.go 93-113) -/

/-- One pass of the outer loop of `startGame`: a card to every player in index order,
then one to the dealer. -/
def dealRound (s : Entropy × GameState) : Entropy × GameState :=
  let s1 := (List.range s.2.Players.length).foldl
    (fun (s : Entropy × GameState) p => dealCard s.1 s.2 (.player p)) s
  dealCard s1.1 s1.2 .dealer

/-- Go `startGame`.  The argument `roomid` is not used by the source either. -/
def startGame (e : Entropy) (_roomid : String) : Entropy × GameState :=
  let gs : GameState :=
    { Deck := newDeck (e 0)
      Players := List.replicate 3 { Cards := [], Done := false, Busted := false }
      Dealer := { Cards := [], Done := false, Busted := false }
      Results := List.replicate 3 ""
      Turn := 0
      Status := "playing" }
  let s := dealRound (dealRound (e.next, gs))
  (s.1, { s.2 with Results := s.2.Results.map (fun _ => "Playing") })

/-! ## gameResult (main.go 115-129) -/

/-- The label chosen by the `if` chain of `gameResult` for one player. -/
def resultLabel (dVal : Int) (player : Hand) : String :=
  let pVal := (handValue player).1
  if player.Busted then "Bust"
  else if dVal > 21 ∨ pVal > dVal then "Win"
  else if pVal < dVal then "Lose"
  else "Push"

/-- One iteration of the loop of `gameResult`; `none` is the panic of an index out of
range in `gs.Results[i] = ...`. -/
def gameResultStep (dVal : Int) (gs : GameState) (i : Nat) : Option GameState :=
  match gs.Players[i]? with
  | none => none
  | some player =>
    if i < gs.Results.length then
      some { gs with Results := gs.Results.set i (resultLabel dVal player) }
    else none

/-- Go `gameResult`. -/
def gameResult (gs : GameState) : Option GameState :=
  let dVal := (handValue gs.Dealer).1
  (List.range gs.Players.length).foldlM (gameResultStep dVal) gs

/-! ## The registry and the HTTP layer -/

/-- The package variable `games`, a map from room id to game. -/
abbrev Registry := String → Option GameState

/-- What `json.NewEncoder(w).Encode(gs)` writes: every field but `Deck`, whose tag is
`json:"-"`. -/
structure GameView where
  dealer : Hand
  players : List Hand
  results : List String
  turn : Nat
  status : String
deriving DecidableEq

/-- The JSON projection of a game. -/
def encode (gs : GameState) : GameView :=
  { dealer := gs.Dealer, players := gs.Players, results := gs.Results,
    turn := gs.Turn, status := gs.Status }

/-- What a handler writes to the `http.ResponseWriter`: `http.Error(w, msg, code)` or
a JSON body with status 200. -/
inductive Response where
  | error (code : Nat) (msg : String)
  | json (body : GameView)
deriving DecidableEq

/-- Splitting a character list at every occurrence of `sep`. -/
def splitChars (sep : Char) : List Char → List (List Char)
  | [] => [[]]
  | c :: cs =>
    if c = sep then [] :: splitChars sep cs
    else
      match splitChars sep cs with
      | [] => [[c]]
      | w :: ws => (c :: w) :: ws

/-- The call `strings.Split(s, "/")`. -/
def splitPath (s : String) : List String :=
  (splitChars '/' s.toList).map String.mk

/-! ## handleStart and handleState (main.go 131-164) -/

/-- Go `handleStart`. -/
def handleStart (e : Entropy) (games : Registry) (path : String) :
    Entropy × Registry × Response :=
  let seg := splitPath path
  if seg.length < 4 then (e, games, .error 400 "Missing gameroomid")
  else
    let roomid := seg.getD 3 ""
    let s := startGame e roomid
    (s.1, Function.update games roomid (some s.2), .json (encode s.2))

/-- Go `handleState`.  The registry is returned as the handler leaves it. -/
def handleState (games : Registry) (path : String) : Registry × Response :=
  let seg := splitPath path
  if seg.length < 4 then (games, .error 400 "Missing gameroomid")
  else
    let roomid := seg.getD 3 ""
    match games roomid with
    | none => (games, .error 404 "Game not found")
    | some gs => (games, .json (encode gs))

/-! ## Card points with aces low

These quantities are not in the source.  They state what the two loops of `handValue`
compute and give the measure of the dealer loop. -/

/-- Points of a card when an ace counts 1. -/
def hardPoints (card : Card) : Int :=
  if card.Value = "A" then 1
  else if card.Value = "K" ∨ card.Value = "Q" ∨ card.Value = "J" then 10
  else sscanfInt card.Value

/-- Total of a list of cards when every ace counts 1. -/
def hardTotal (cards : List Card) : Int := (cards.map hardPoints).sum

/-- Number of aces in a list of cards. -/
def aceNumber (cards : List Card) : Nat := cards.countP (fun c => c.Value = "A")

/-- The quantity that decreases at every iteration of the dealer loop. -/
def dealerMeasure (gs : GameState) : Nat :=
  53 * (17 - (hardTotal gs.Dealer.Cards + hardTotal gs.Deck)).toNat + gs.Deck.length

/-! ## Termination of the dealer loop

The loop of `handleAction` that draws for the dealer has no bound in the source.  The
facts below give the quantity that decreases at each draw, so that `dealerLoop` can be
defined as the loop itself. -/

theorem swapCards_perm (l : List Card) (i j : Nat) : (swapCards l i j).Perm l := by
  unfold swapCards
  split
  · rename_i a b ha hb
    obtain ⟨hi, rfl⟩ := List.getElem?_eq_some_iff.mp ha
    obtain ⟨hj, rfl⟩ := List.getElem?_eq_some_iff.mp hb
    rw [List.perm_iff_count]
    intro x
    have hj' : j < (l.set i l[j]).length := by simpa using hj
    rw [List.count_set _ _ _ _ hj', List.count_set _ _ _ _ hi]
    have h1 : (l.set i l[j])[j] = l[j] := by
      rw [List.getElem_set]; split <;> rfl
    rw [h1]
    have h2 : (if l[i] == x then 1 else 0) ≤ l.count x := by
      have := List.boole_getElem_le_countP (fun y => y == x) l i hi
      simpa [List.count_eq_countP] using this
    omega
  · exact List.Perm.refl _

theorem shuffleLoop_perm (d : Draws) (i : Nat) (l : List Card) : (shuffleLoop d i l).Perm l := by
  induction i generalizing l with
  | zero => exact List.Perm.refl _
  | succ i ih => exact (ih _).trans (swapCards_perm _ _ _)

theorem newDeck_perm (d : Draws) : (newDeck d).Perm orderedDeck := shuffleLoop_perm _ _ _

theorem foldl_addCard (cards : List Card) (acc : Int × Nat) :
    cards.foldl addCard acc
      = (acc.1 + hardTotal cards + 10 * aceNumber cards, acc.2 + aceNumber cards) := by
  induction cards generalizing acc with
  | nil => simp [hardTotal, aceNumber]
  | cons c cs ih =>
    rw [List.foldl_cons, ih]
    unfold addCard hardTotal aceNumber
    by_cases hA : c.Value = "A"
    · simp [hardPoints, hA, List.countP_cons]
      constructor <;> ring
    · by_cases hK : c.Value = "K" ∨ c.Value = "Q" ∨ c.Value = "J"
      · simp [hardPoints, hA, hK, List.countP_cons]; ring
      · simp [hardPoints, hA, hK, List.countP_cons]; ring

theorem demoteAces_ge (val : Int) (n : Nat) (soft : Bool) :
    val - 10 * n ≤ (demoteAces val n soft).1 := by
  induction n generalizing val soft with
  | zero => simp [demoteAces]
  | succ n ih =>
    unfold demoteAces
    split
    · have := ih (val - 10) true
      push_cast
      omega
    · simp; omega

theorem hardTotal_le_handValue (hand : Hand) : hardTotal hand.Cards ≤ (handValue hand).1 := by
  unfold handValue
  simp only [foldl_addCard]
  have := demoteAces_ge (0 + hardTotal hand.Cards + 10 * aceNumber hand.Cards)
    (0 + aceNumber hand.Cards) false
  simp only [zero_add] at this ⊢
  omega

theorem hardTotal_orderedDeck : hardTotal orderedDeck = 340 := by decide

theorem hardTotal_newDeck (d : Draws) : hardTotal (newDeck d) = 340 := by
  rw [← hardTotal_orderedDeck]
  exact ((newDeck_perm d).map hardPoints).sum_eq

theorem newDeck_length (d : Draws) : (newDeck d).length = 52 := by
  rw [(newDeck_perm d).length_eq]; decide


theorem hardTotal_append (a b : List Card) : hardTotal (a ++ b) = hardTotal a + hardTotal b := by
  simp [hardTotal]

theorem hardTotal_cons (c : Card) (l : List Card) :
    hardTotal (c :: l) = hardPoints c + hardTotal l := by
  simp [hardTotal]

/-- What `dealCard` does: the first card of the deck, or of a new deck when the deck is
exhausted, goes to the hand; the `[]` branch of its definition is never taken. -/
theorem dealCard_eq (e : Entropy) (gs : GameState) (hand : HandRef) :
    ∃ c rest, (if gs.Deck.length = 0 then newDeck (e 0) else gs.Deck) = c :: rest ∧
      dealCard e gs hand =
        (if gs.Deck.length = 0 then e.next else e,
         appendCard { gs with Deck := rest } hand c) := by
  unfold dealCard
  by_cases h : gs.Deck.length = 0
  · simp only [h, if_true]
    have hl := newDeck_length (e 0)
    match hd : newDeck (e 0) with
    | [] => rw [hd] at hl; simp at hl
    | c :: rest => exact ⟨c, rest, rfl, rfl⟩
  · simp only [h, if_false]
    match hd : gs.Deck with
    | [] => rw [hd] at h; simp at h
    | c :: rest => exact ⟨c, rest, rfl, rfl⟩

theorem dealCard_dealer_eq (e : Entropy) (gs : GameState) :
    ∃ c rest, (if gs.Deck.length = 0 then newDeck (e 0) else gs.Deck) = c :: rest ∧
      dealCard e gs .dealer =
        (if gs.Deck.length = 0 then e.next else e,
         { gs with Deck := rest, Dealer := { gs.Dealer with Cards := gs.Dealer.Cards ++ [c] } }) :=
  dealCard_eq e gs .dealer

theorem dealerMeasure_dealCard (e : Entropy) (gs : GameState)
    (h : (handValue gs.Dealer).1 < 17) :
    dealerMeasure (dealCard e gs .dealer).2 < dealerMeasure gs := by
  obtain ⟨c, rest, hc, heq⟩ := dealCard_dealer_eq e gs
  rw [heq]
  have hv := hardTotal_le_handValue gs.Dealer
  simp only [dealerMeasure, hardTotal_append]
  by_cases h0 : gs.Deck.length = 0
  · simp only [h0, if_true] at hc
    have h340 := hardTotal_newDeck (e 0)
    have h52 := newDeck_length (e 0)
    rw [hc] at h340 h52
    have hnil : gs.Deck = [] := List.length_eq_zero.mp h0
    simp only [hardTotal_cons, List.length_cons] at h340 h52
    simp only [hnil, hardTotal, List.map_nil, List.sum_nil, List.length_nil, List.map_cons,
      List.sum_cons] at *
    omega
  · simp only [h0, if_false] at hc
    rw [hc]
    simp only [hardTotal_cons, List.length_cons, hardTotal, List.map_nil, List.sum_nil,
      List.map_cons, List.sum_cons]
    have : 17 - ((List.map hardPoints gs.Dealer.Cards).sum + (hardPoints c + 0) +
        (List.map hardPoints rest).sum) = 17 - ((List.map hardPoints gs.Dealer.Cards).sum +
        (hardPoints c + (List.map hardPoints rest).sum)) := by ring
    rw [this]
    omega

/-! ## handleAction (main.go 171-243) -/

/-- The dealer loop of `handleAction` (main.go 228-235): draw one card for the dealer
while the dealer's value is below 17. -/
def dealerLoop (e : Entropy) (gs : GameState) : Entropy × GameState :=
  if (handValue gs.Dealer).1 < 17 then
    dealerLoop (dealCard e gs .dealer).1 (dealCard e gs .dealer).2
  else (e, gs)
termination_by dealerMeasure gs
decreasing_by exact dealerMeasure_dealCard e gs (by assumption)

/-- The scan `for i := range gs.Players` of main.go 219-225: the index of the first
player that is not done, `none` when the loop ends with `allDone` still true. -/
def firstNotDone : List Hand → Option Nat
  | [] => none
  | h :: t => if h.Done then (firstNotDone t).map (· + 1) else some 0

/-- The tail of `handleAction` (main.go 217-239) that both accepted branches reach: set
`Turn` to the first player not done, or let the dealer play and score the game. -/
def advanceTurn (e : Entropy) (gs : GameState) : Option (Entropy × GameState) :=
  match firstNotDone gs.Players with
  | some i => some (e, { gs with Turn := i })
  | none =>
    let s := dealerLoop e gs
    match gameResult { s.2 with Status := "finished" } with
    | none => none
    | some scored => some (s.1, { scored with Turn := 3 })

/-- The statements `if isBusted(*player) { player.Busted = true; player.Done = true }`
with `player = &gs.Players[p]`. -/
def markBusted (gs : GameState) (p : Nat) : GameState :=
  match gs.Players[p]? with
  | some h =>
    if isBusted h then
      { gs with Players := gs.Players.set p { h with Busted := true, Done := true } }
    else gs
  | none => gs

/-- The statement `player.Done = true` with `player = &gs.Players[p]`. -/
def markDone (gs : GameState) (p : Nat) : GameState :=
  match gs.Players[p]? with
  | some h => { gs with Players := gs.Players.set p { h with Done := true } }
  | none => gs

/-- The end of an accepted action: the game was mutated in place, so the registry holds
the new state, and the new state is encoded as the response. -/
def respond (games : Registry) (roomid : String) (s : Option (Entropy × GameState)) :
    Option (Entropy × Registry × Response) :=
  s.map (fun s => (s.1, Function.update games roomid (some s.2), Response.json (encode s.2)))

/-- Go `handleAction`.  The body is given as the outcome of
`json.NewDecoder(r.Body).Decode(&req)`: `none` when decoding fails.  The result `none`
is the panic of `gs.Players[req.Player]` or of `gameResult`. -/
def handleAction (e : Entropy) (games : Registry) (path : String)
    (body : Option ActionRequest) : Option (Entropy × Registry × Response) :=
  let seg := splitPath path
  if seg.length < 4 then some (e, games, .error 400 "Missing gameroomid")
  else
    let roomid := seg.getD 3 ""
    match games roomid with
    | none => some (e, games, .error 400 "Game not found or not in playing state")
    | some gs =>
      if gs.Status ≠ "playing" then
        some (e, games, .error 400 "Game not found or not in playing state")
      else
        match body with
        | none => some (e, games, .error 400 "Invalid input")
        | some req =>
          if req.Player < 0 ∨ req.Player > 2 then
            some (e, games, .error 400 "Invalid player")
          else
            match gs.Players[req.Player.toNat]? with
            | none => none
            | some player =>
              if player.Done then some (e, games, .error 400 "Player already finished")
              else if req.Action = "hit" then
                let s := dealCard e gs (.player req.Player.toNat)
                respond games roomid (advanceTurn s.1 (markBusted s.2 req.Player.toNat))
              else if req.Action = "stand" then
                respond games roomid (advanceTurn e (markDone gs req.Player.toNat))
              else some (e, games, .error 400 "Unknown action")

/-! ## Reachable registries -/

/-- The registries the server can hold: the empty map of `make(map[string]*GameState)`,
and whatever a handler leaves behind, for any path, body and random draws. -/
inductive Reachable : Registry → Prop
  | init : Reachable (fun _ => none)
  | start (e : Entropy) (games : Registry) (path : String) :
      Reachable games → Reachable (handleStart e games path).2.1
  | state (games : Registry) (path : String) :
      Reachable games → Reachable (handleState games path).1
  | action (e : Entropy) (games : Registry) (path : String) (body : Option ActionRequest)
      (out : Entropy × Registry × Response) :
      Reachable games → handleAction e games path body = some out → Reachable out.2.1

/-! ## Definitions that follow the specification -/

/-- The 4×13 Cartesian product of `suits` and `values`, as cards: the canonical
52-card set. -/
def fullDeck : List Card :=
  (List.product suits values).map (fun sv => Card.mk sv.1 sv.2)
/-- The count of a rank other than the ace, in the words of the specification: J, Q and
K count 10, a numeric rank counts its face value. -/
def rankPoints (rank : String) : Int :=
  match rank with
  | "2" => 2
  | "3" => 3
  | "4" => 4
  | "5" => 5
  | "6" => 6
  | "7" => 7
  | "8" => 8
  | "9" => 9
  | "10" => 10
  | "J" => 10
  | "Q" => 10
  | "K" => 10
  | _ => 0

/-- Every total obtainable from the cards by counting each ace as 1 or as 11. -/
def aceTotals : List Card → List Int
  | [] => [0]
  | card :: rest =>
    if card.Value = "A" then
      (aceTotals rest).map (fun t => t + 1) ++ (aceTotals rest).map (fun t => t + 11)
    else (aceTotals rest).map (fun t => t + rankPoints card.Value)

/-- The total with every ace counted as 1. -/
def lowTotal : List Card → Int
  | [] => 0
  | card :: rest => (if card.Value = "A" then 1 else rankPoints card.Value) + lowTotal rest
/-- The hand of player `p` after a hit: the card is appended, and both flags are set
exactly when the new total exceeds 21. -/
def hitHand (h : Hand) (c : Card) : Hand :=
  { Cards := h.Cards ++ [c]
    Done := isBusted { Cards := h.Cards ++ [c], Done := false, Busted := false }
    Busted := isBusted { Cards := h.Cards ++ [c], Done := false, Busted := false } }

/-- All the cards of a game: the deck, the dealer's hand and the players' hands. -/
def allCards (gs : GameState) : List Card :=
  gs.Deck ++ gs.Dealer.Cards ++ (gs.Players.map Hand.Cards).flatten

/-- What holds of every player's hand in a running game. -/
structure HandOk (h : Hand) : Prop where
  busted_iff : h.Busted = true ↔ 21 < (handValue h).1
  busted_done : h.Busted = true → h.Done = true
  hard_le : hardTotal h.Cards ≤ 31

/-- The part of the game invariant that concerns the cards. -/
structure CardsInv (gs : GameState) : Prop where
  players_len : gs.Players.length = 3
  results_len : gs.Results.length = 3
  perm : (allCards gs).Perm fullDeck
  hands : ∀ h ∈ gs.Players, HandOk h
  dealer_hard : hardTotal gs.Dealer.Cards ≤ 26
  dealer_flags : gs.Dealer.Done = false ∧ gs.Dealer.Busted = false

/-- The part of the game invariant that concerns `Turn` and `Status`. -/
structure TurnInv (gs : GameState) : Prop where
  turn : firstNotDone gs.Players = some gs.Turn ∨
    (firstNotDone gs.Players = none ∧ gs.Turn = 3)
  status : (gs.Status = "playing" ∧ firstNotDone gs.Players ≠ none) ∨
    (gs.Status = "finished" ∧ firstNotDone gs.Players = none)

/-- The invariant of every game held by a reachable registry. -/
structure GameInv (gs : GameState) : Prop where
  cards : CardsInv gs
  turns : TurnInv gs
/-- The game an accepted request leaves before the turn is advanced (main.go 204-211):
after "hit" a card is dealt to the player and the bust test is made, otherwise the
player is marked done. -/
def afterMove (e : Entropy) (gs : GameState) (req : ActionRequest) : Entropy × GameState :=
  if req.Action = "hit" then
    ((dealCard e gs (.player req.Player.toNat)).1,
      markBusted (dealCard e gs (.player req.Player.toNat)).2 req.Player.toNat)
  else (e, markDone gs req.Player.toNat)

/-- The preconditions of an action as the specification lists them: the game exists, it
is playing, the player index is 0, 1 or 2, the player is not done, and the action is
"hit" or "stand". -/
def Acceptable (games : Registry) (roomid : String) (req : ActionRequest) : Prop :=
  ∃ gs player, games roomid = some gs ∧ gs.Status = "playing" ∧
    0 ≤ req.Player ∧ req.Player ≤ 2 ∧
    gs.Players[req.Player.toNat]? = some player ∧ player.Done = false ∧
    (req.Action = "hit" ∨ req.Action = "stand")

/-- Every game of the registry has its three players and three results. -/
def Shaped (games : Registry) : Prop :=
  ∀ roomid gs, games roomid = some gs → gs.Players.length = 3 ∧ gs.Results.length = 3

/-- Every game of the registry satisfies the game invariant. -/
def RegistryInv (games : Registry) : Prop :=
  ∀ roomid gs, games roomid = some gs → GameInv gs
/-- An entropy stream for the examples: every draw is 0. -/
def zeroEntropy : Entropy := fun _ _ => 0

/-- The registry after one request `/game/start/r1` on the empty registry. -/
def startedRegistry : Registry :=
  (handleStart zeroEntropy (fun _ => none) "/game/start/r1").2.1
/-- A game in which only player 2 has still to move; the dealer holds 17. -/
def lastMoveGame : GameState :=
  { Deck := [⟨"C", "2"⟩, ⟨"C", "3"⟩]
    Dealer := { Cards := [⟨"S", "K"⟩, ⟨"H", "7"⟩], Done := false, Busted := false }
    Players := [{ Cards := [⟨"S", "10"⟩, ⟨"H", "9"⟩], Done := true, Busted := false },
                { Cards := [⟨"D", "10"⟩, ⟨"D", "6"⟩, ⟨"C", "9"⟩], Done := true, Busted := true },
                { Cards := [⟨"D", "8"⟩, ⟨"C", "8"⟩], Done := false, Busted := false }]
    Results := ["Playing", "Playing", "Playing"]
    Turn := 2
    Status := "playing" }

/-- The game `lastMoveGame` after player 2 stands: the dealer draws nothing and the game
is scored. -/
def finishedGame : GameState :=
  { Deck := [⟨"C", "2"⟩, ⟨"C", "3"⟩]
    Dealer := { Cards := [⟨"S", "K"⟩, ⟨"H", "7"⟩], Done := false, Busted := false }
    Players := [{ Cards := [⟨"S", "10"⟩, ⟨"H", "9"⟩], Done := true, Busted := false },
                { Cards := [⟨"D", "10"⟩, ⟨"D", "6"⟩, ⟨"C", "9"⟩], Done := true, Busted := true },
                { Cards := [⟨"D", "8"⟩, ⟨"C", "8"⟩], Done := true, Busted := false }]
    Results := ["Win", "Bust", "Lose"]
    Turn := 3
    Status := "finished" }

/-- A registry whose only game is `gs`, in room "r1". -/
def oneRoom (gs : GameState) : Registry := fun roomid => if roomid = "r1" then some gs else none
/-- A sequence of action requests handled one after the other, with no start between
them; `none` when one of them panics. -/
def runActions (games : Registry) :
    List (Entropy × String × Option ActionRequest) → Option Registry
  | [] => some games
  | (e, path, body) :: rest =>
    match handleAction e games path body with
    | none => none
    | some out => runActions out.2.1 rest
/-- The game after `n` draws of the dealer in a row: `n` calls of
`dealCard(gs, &gs.Dealer)`. -/
def dealerDraws : Nat → Entropy → GameState → Entropy × GameState
  | 0, e, gs => (e, gs)
  | n + 1, e, gs => dealerDraws n (dealCard e gs .dealer).1 (dealCard e gs .dealer).2
/-- The total of a hand with every ace counted as 11, in the words of the
specification. -/
def highTotal : List Card → Int
  | [] => 0
  | card :: rest => (if card.Value = "A" then 11 else rankPoints card.Value) + highTotal rest

/-- The number of iterations of the second loop of `handValue`, that is the number of
aces it demotes from 11 to 1: the loop of `demoteAces`, counting instead of computing. -/
def demotions : Int → Nat → Nat
  | _, 0 => 0
  | val, aceCount + 1 => if val > 21 then demotions (val - 10) aceCount + 1 else 0

/-- The number of aces `handValue` demotes in a hand. -/
def demotedAces (hand : Hand) : Nat :=
  let acc := hand.Cards.foldl addCard (0, 0)
  demotions acc.1 acc.2
/-! ## A step model of two concurrent requests

The handlers above are the handlers run one at a time.  To say where the lock is held,
`handleState` and `handleAction` are given once more as step functions over the memory
the handlers share, one step for each stretch of the source between two points where
another goroutine can be scheduled.  No step of the two replaces an entry of the map, so
the pointer `gs` a handler holds is identified with the room id it was read from. -/

/-- The memory shared by the handlers: the mutex `mu` and the map `games` with the
games it points to. -/
structure Shared where
  locked : Bool
  games : Registry

/-- Where a state request stands in `handleState` (main.go 155-163). -/
inductive StatePc where
  | start
  | locked
  | looked (ok : Bool)
  | unlocked (ok : Bool)
  | done (resp : Response)
deriving DecidableEq

/-- One step of `handleState` for the room `roomid`: `mu.Lock()` (which blocks, `none`,
while the lock is held), the lookup `gs, ok := games[roomid]`, `mu.Unlock()`, and then,
with the lock released, the 404 or `Encode(gs)`, which reads the game as it is at that
moment. -/
def stateStep (roomid : String) (pc : StatePc) (sh : Shared) : Option (StatePc × Shared) :=
  match pc with
  | .start => if sh.locked then none else some (.locked, { sh with locked := true })
  | .locked => some (.looked (sh.games roomid).isSome, sh)
  | .looked ok => some (.unlocked ok, { sh with locked := false })
  | .unlocked false => some (.done (.error 404 "Game not found"), sh)
  | .unlocked true =>
    match sh.games roomid with
    | some gs => some (.done (.json (encode gs)), sh)
    | none => none
  | .done _ => none

/-- The guards of `handleAction` between the lookup and the move (main.go 180-203) and
the test of the action string (204, 210, 212): the message of the first guard that
fails, or the decoded request; `none` is the panic of `gs.Players[req.Player]`. -/
def actionChecks (games : Registry) (roomid : String) (body : Option ActionRequest) :
    Option (Except String ActionRequest) :=
  match games roomid with
  | none => some (.error "Game not found or not in playing state")
  | some gs =>
    if gs.Status ≠ "playing" then some (.error "Game not found or not in playing state")
    else
      match body with
      | none => some (.error "Invalid input")
      | some req =>
        if req.Player < 0 ∨ req.Player > 2 then some (.error "Invalid player")
        else
          match gs.Players[req.Player.toNat]? with
          | none => none
          | some player =>
            if player.Done then some (.error "Player already finished")
            else if req.Action = "hit" ∨ req.Action = "stand" then some (.ok req)
            else some (.error "Unknown action")

/-- Where an action request stands in `handleAction` (main.go 179-242). -/
inductive ActionPc where
  | start
  | locked
  | failing (msg : String)
  | checked (req : ActionRequest)
  | moved (e : Entropy)
  | advanced
  | unlocked
  | done (resp : Response)

/-- One step of `handleAction` for the room `roomid`: `mu.Lock()`; the guards; on a
failed guard `mu.Unlock()` and the error; otherwise the move (204-211), the turn advance
(217-239), `mu.Unlock()` (240), and then, with the lock released, `Encode(gs)` (242). -/
def actionStep (e : Entropy) (roomid : String) (body : Option ActionRequest)
    (pc : ActionPc) (sh : Shared) : Option (ActionPc × Shared) :=
  match pc with
  | .start => if sh.locked then none else some (.locked, { sh with locked := true })
  | .locked =>
    match actionChecks sh.games roomid body with
    | none => none
    | some (.error msg) => some (.failing msg, sh)
    | some (.ok req) => some (.checked req, sh)
  | .failing msg => some (.done (.error 400 msg), { sh with locked := false })
  | .checked req =>
    match sh.games roomid with
    | none => none
    | some gs =>
      some (.moved (afterMove e gs req).1,
        { sh with games := Function.update sh.games roomid (some (afterMove e gs req).2) })
  | .moved e1 =>
    match sh.games roomid with
    | none => none
    | some gs =>
      match advanceTurn e1 gs with
      | none => none
      | some s => some (.advanced, { sh with games := Function.update sh.games roomid (some s.2) })
  | .advanced => some (.unlocked, { sh with locked := false })
  | .unlocked =>
    match sh.games roomid with
    | none => none
    | some gs => some (.done (.json (encode gs)), sh)
  | .done _ => none

/-- The action request run alone for `n` steps. -/
def actionRun (e : Entropy) (roomid : String) (body : Option ActionRequest) :
    Nat → ActionPc × Shared → ActionPc × Shared
  | 0, s => s
  | n + 1, s =>
    match actionStep e roomid body s.1 s.2 with
    | none => s
    | some next => actionRun e roomid body n next

/-- A state request and an action request in flight on the same shared memory. -/
structure TwoRequests where
  shared : Shared
  statePc : StatePc
  actionPc : ActionPc

/-- Which of the two requests the scheduler lets take its next step. -/
inductive Pick where
  | stateRequest
  | actionRequest
deriving DecidableEq

/-- An interleaving of the two requests: each entry of the schedule lets one of them take
one step; `none` when the chosen request cannot step. -/
def runSchedule (e : Entropy) (roomid : String) (body : Option ActionRequest) :
    List Pick → TwoRequests → Option TwoRequests
  | [], s => some s
  | .stateRequest :: rest, s =>
    match stateStep roomid s.statePc s.shared with
    | none => none
    | some next =>
      runSchedule e roomid body rest { s with statePc := next.1, shared := next.2 }
  | .actionRequest :: rest, s =>
    match actionStep e roomid body s.actionPc s.shared with
    | none => none
    | some next =>
      runSchedule e roomid body rest { s with actionPc := next.1, shared := next.2 }

/-! ## The deck -/

theorem orderedDeck_eq_fullDeck : orderedDeck = fullDeck := by decide

theorem fullDeck_nodup : fullDeck.Nodup := by decide

theorem mem_fullDeck (c : Card) : c ∈ fullDeck ↔ c.Suit ∈ suits ∧ c.Value ∈ values := by
  obtain ⟨s, v⟩ := c
  unfold fullDeck
  rw [List.mem_map]
  constructor
  · rintro ⟨⟨a, b⟩, hab, heq⟩
    have h := List.pair_mem_product.mp hab
    simp only [Card.mk.injEq] at heq
    obtain ⟨rfl, rfl⟩ := heq
    exact h
  · intro h
    exact ⟨(s, v), List.pair_mem_product.mpr h, rfl⟩

theorem newDeck_perm_fullDeck (d : Draws) : (newDeck d).Perm fullDeck :=
  orderedDeck_eq_fullDeck ▸ newDeck_perm d

/-- C1.  Whatever numbers the random source draws, `newDeck` returns 52 cards that are
a permutation of the Cartesian product of the four suits and the thirteen ranks: every
(suit, rank) pair occurs exactly once, and nothing else occurs. -/
theorem newDeck_is_shuffled_full_deck (d : Draws) :
    (newDeck d).length = 52 ∧
    (newDeck d).Perm fullDeck ∧
    (∀ suit ∈ suits, ∀ value ∈ values, (newDeck d).count (Card.mk suit value) = 1) ∧
    (∀ card ∈ newDeck d, card.Suit ∈ suits ∧ card.Value ∈ values) := by
  have hp : (newDeck d).Perm fullDeck := newDeck_perm_fullDeck d
  refine ⟨newDeck_length d, hp, ?_, ?_⟩
  · intro suit hs value hv
    rw [hp.count_eq]
    exact List.count_eq_one_of_mem fullDeck_nodup ((mem_fullDeck _).mpr ⟨hs, hv⟩)
  · intro card hc
    exact (mem_fullDeck card).mp (hp.mem_iff.mp hc)

/-! ## The hand evaluator -/

theorem hardPoints_of_rank (c : Card) (h : c.Value ∈ values) :
    hardPoints c = if c.Value = "A" then 1 else rankPoints c.Value := by
  have key : ∀ v ∈ values, (if v = "A" then (1 : Int)
      else if v = "K" ∨ v = "Q" ∨ v = "J" then 10 else sscanfInt v)
      = if v = "A" then 1 else rankPoints v := by decide
  exact key c.Value h

theorem lowTotal_eq_hardTotal (cards : List Card) (h : ∀ c ∈ cards, c.Value ∈ values) :
    lowTotal cards = hardTotal cards := by
  induction cards with
  | nil => rfl
  | cons c cs ih =>
    rw [lowTotal, hardTotal_cons, ih (fun x hx => h x (List.mem_cons_of_mem _ hx)),
      hardPoints_of_rank c (h c (List.mem_cons_self _ _))]

theorem aceNumber_cons (c : Card) (cs : List Card) :
    aceNumber (c :: cs) = aceNumber cs + if c.Value = "A" then 1 else 0 := by
  simp [aceNumber, List.countP_cons]

theorem mem_aceTotals (cards : List Card) (h : ∀ c ∈ cards, c.Value ∈ values) (t : Int) :
    t ∈ aceTotals cards ↔ ∃ k : Nat, k ≤ aceNumber cards ∧ t = hardTotal cards + 10 * k := by
  induction cards generalizing t with
  | nil =>
    simp [aceTotals, aceNumber, hardTotal]
  | cons c cs ih =>
    have ih := ih (fun x hx => h x (List.mem_cons_of_mem _ hx))
    have hc := hardPoints_of_rank c (h c (List.mem_cons_self _ _))
    rw [aceTotals, hardTotal_cons, aceNumber_cons, hc]
    by_cases hA : c.Value = "A"
    · simp only [hA, if_true, List.mem_append, List.mem_map]
      constructor
      · rintro (⟨u, hu, rfl⟩ | ⟨u, hu, rfl⟩)
        · obtain ⟨k, hk, rfl⟩ := (ih u).mp hu
          exact ⟨k, by omega, by ring⟩
        · obtain ⟨k, hk, rfl⟩ := (ih u).mp hu
          exact ⟨k + 1, by omega, by push_cast; ring⟩
      · rintro ⟨k, hk, rfl⟩
        by_cases hk0 : k ≤ aceNumber cs
        · exact Or.inl ⟨hardTotal cs + 10 * k, (ih _).mpr ⟨k, hk0, rfl⟩, by ring⟩
        · refine Or.inr ⟨hardTotal cs + 10 * (k - 1 : Nat), (ih _).mpr ⟨k - 1, by omega, rfl⟩, ?_⟩
          have : ((k - 1 : Nat) : Int) = (k : Int) - 1 := by omega
          rw [this]; ring
    · simp only [hA, if_false, List.mem_map, Nat.add_zero]
      constructor
      · rintro ⟨u, hu, rfl⟩
        obtain ⟨k, hk, rfl⟩ := (ih u).mp hu
        exact ⟨k, hk, by ring⟩
      · rintro ⟨k, hk, rfl⟩
        exact ⟨hardTotal cs + 10 * k, (ih _).mpr ⟨k, hk, rfl⟩, by ring⟩

theorem demoteAces_spec (v : Int) (n : Nat) (soft : Bool) :
    ∃ k : Nat, k ≤ n ∧ (demoteAces (v + 10 * n) n soft).1 = v + 10 * k ∧
      (v + 10 * k ≤ 21 ∨ k = 0) ∧ (k < n → 21 < v + 10 * (k + 1)) := by
  induction n generalizing soft with
  | zero => exact ⟨0, le_refl _, by simp [demoteAces], Or.inr rfl, by omega⟩
  | succ n ih =>
    unfold demoteAces
    by_cases hgt : v + 10 * ((n + 1 : Nat) : Int) > 21
    · rw [if_pos hgt]
      have hrw : v + 10 * ((n + 1 : Nat) : Int) - 10 = v + 10 * (n : Int) := by
        push_cast; ring
      rw [hrw]
      obtain ⟨k, hk, hval, hle, hnext⟩ := ih true
      refine ⟨k, by omega, hval, hle, ?_⟩
      intro hlt
      by_cases hkn : k < n
      · exact hnext hkn
      · have : k = n := by omega
        subst this
        push_cast at hgt ⊢
        omega
    · rw [if_neg hgt]
      exact ⟨n + 1, le_refl _, rfl, Or.inl (by omega), by omega⟩

/-- The total of `handValue` in closed form: the hard total plus ten for each ace that
is still counted as 11. -/
theorem handValue_closed (hand : Hand) :
    ∃ k : Nat, k ≤ aceNumber hand.Cards ∧
      (handValue hand).1 = hardTotal hand.Cards + 10 * k ∧
      (hardTotal hand.Cards + 10 * k ≤ 21 ∨ k = 0) ∧
      (k < aceNumber hand.Cards → 21 < hardTotal hand.Cards + 10 * (k + 1)) := by
  unfold handValue
  simp only [foldl_addCard, zero_add]
  exact demoteAces_spec _ _ _

/-- C2.  For a hand of cards of the thirteen ranks, the total of `handValue` is the best
blackjack total: when some way of counting each ace as 1 or 11 gives a total of at most
21, it is the largest such total; otherwise it is the total with every ace counted as 1.
Four aces evaluate to 14 and are not busted; the empty hand evaluates to 0. -/
theorem handValue_is_best_total (hand : Hand) (hr : ∀ c ∈ hand.Cards, c.Value ∈ values) :
    ((∃ t ∈ aceTotals hand.Cards, t ≤ 21) →
      (handValue hand).1 ∈ aceTotals hand.Cards ∧ (handValue hand).1 ≤ 21 ∧
      ∀ t ∈ aceTotals hand.Cards, t ≤ 21 → t ≤ (handValue hand).1) ∧
    ((¬ ∃ t ∈ aceTotals hand.Cards, t ≤ 21) → (handValue hand).1 = lowTotal hand.Cards) ∧
    (∀ aces : Hand, aces.Cards.length = 4 → (∀ c ∈ aces.Cards, c.Value = "A") →
      (handValue aces).1 = 14 ∧ isBusted aces = false) ∧
    (∀ empty : Hand, empty.Cards = [] → (handValue empty).1 = 0) := by
  obtain ⟨k, hk, hval, hle, hnext⟩ := handValue_closed hand
  refine ⟨?_, ?_, ?_, ?_⟩
  · rintro ⟨t, ht, ht21⟩
    obtain ⟨j, hj, rfl⟩ := (mem_aceTotals _ hr t).mp ht
    have h21 : hardTotal hand.Cards + 10 * (k : Int) ≤ 21 := by
      rcases hle with h | h
      · exact h
      · subst h; push_cast; omega
    refine ⟨(mem_aceTotals _ hr _).mpr ⟨k, hk, hval⟩, hval ▸ h21, ?_⟩
    intro u hu hu21
    obtain ⟨i, hi, rfl⟩ := (mem_aceTotals _ hr u).mp hu
    rw [hval]
    by_contra hlt
    have hki : k < i := by omega
    have := hnext (by omega)
    omega
  · intro hnone
    rw [lowTotal_eq_hardTotal _ hr, hval]
    rcases hle with h | h
    · exact absurd ⟨_, (mem_aceTotals _ hr _).mpr ⟨k, hk, rfl⟩, h⟩ hnone
    · subst h; simp
  · intro aces hlen hall
    obtain ⟨cs, dn, bs⟩ := aces
    match cs, hlen, hall with
    | [c1, c2, c3, c4], _, hall =>
      have h1 := hall c1 (by simp)
      have h2 := hall c2 (by simp)
      have h3 := hall c3 (by simp)
      have h4 := hall c4 (by simp)
      simp [isBusted, handValue, addCard, demoteAces, h1, h2, h3, h4]
  · intro empty he
    simp [handValue, he, demoteAces]

/-- C2 at the hand ace, ace, nine: the total is 21, one ace being counted as 11. -/
theorem handValue_is_best_total_witness :
    (∀ c ∈ ([⟨"S", "A"⟩, ⟨"H", "A"⟩, ⟨"D", "9"⟩] : List Card), c.Value ∈ values) ∧
    (handValue ⟨[⟨"S", "A"⟩, ⟨"H", "A"⟩, ⟨"D", "9"⟩], false, false⟩).1
      ∈ aceTotals [⟨"S", "A"⟩, ⟨"H", "A"⟩, ⟨"D", "9"⟩] ∧
    (handValue ⟨[⟨"S", "A"⟩, ⟨"H", "A"⟩, ⟨"D", "9"⟩], false, false⟩).1 = 21 :=
  ⟨by decide,
   ((handValue_is_best_total ⟨[⟨"S", "A"⟩, ⟨"H", "A"⟩, ⟨"D", "9"⟩], false, false⟩
      (by decide)).1 ⟨21, by decide, by decide⟩).1,
   by decide⟩

/-! ## Dealing -/

theorem startGame_eq (e : Entropy) (roomid : String) :
    ∃ c0 c1 c2 c3 c4 c5 c6 c7 rest,
      newDeck (e 0) = c0 :: c1 :: c2 :: c3 :: c4 :: c5 :: c6 :: c7 :: rest ∧
      rest.length = 44 ∧
      startGame e roomid =
        (e.next,
         { Deck := rest
           Dealer := { Cards := [c3, c7], Done := false, Busted := false }
           Players := [{ Cards := [c0, c4], Done := false, Busted := false },
                       { Cards := [c1, c5], Done := false, Busted := false },
                       { Cards := [c2, c6], Done := false, Busted := false }]
           Results := ["Playing", "Playing", "Playing"]
           Turn := 0
           Status := "playing" }) := by
  have hl := newDeck_length (e 0)
  match hd : newDeck (e 0), hl with
  | c0 :: c1 :: c2 :: c3 :: c4 :: c5 :: c6 :: c7 :: rest, hl =>
    refine ⟨c0, c1, c2, c3, c4, c5, c6, c7, rest, rfl, by simpa using hl, ?_⟩
    have hr : List.range 3 = [0, 1, 2] := rfl
    simp [startGame, hd, dealRound, dealCard, appendCard, hr]

/-- C3.  `startGame` deals the first eight cards of the new deck `d` in the order
player 0, player 1, player 2, dealer, twice: player `p` holds `[d[p], d[p+4]]`, the
dealer holds `[d[3], d[7]]`, the deck keeps the 44 cards `d[8..51]`, no flag is set,
the three results are "Playing", `Turn` is 0 and `Status` is "playing". -/
theorem startGame_deals_first_eight (e : Entropy) (roomid : String) :
    ∃ c0 c1 c2 c3 c4 c5 c6 c7 rest,
      newDeck (e 0) = c0 :: c1 :: c2 :: c3 :: c4 :: c5 :: c6 :: c7 :: rest ∧
      rest.length = 44 ∧
      startGame e roomid =
        (e.next,
         { Deck := rest
           Dealer := { Cards := [c3, c7], Done := false, Busted := false }
           Players := [{ Cards := [c0, c4], Done := false, Busted := false },
                       { Cards := [c1, c5], Done := false, Busted := false },
                       { Cards := [c2, c6], Done := false, Busted := false }]
           Results := ["Playing", "Playing", "Playing"]
           Turn := 0
           Status := "playing" }) :=
  startGame_eq e roomid

/-! ## Scoring -/

theorem set_results_step {α β : Type} (f : α → β) (ps : List α) (rs : List β) (k : Nat)
    (p : α) (hp : ps[k]? = some p) (hr : k < rs.length) :
    ((ps.take k).map f ++ rs.drop k).set k (f p) = (ps.take (k + 1)).map f ++ rs.drop (k + 1) := by
  obtain ⟨hk, rfl⟩ := List.getElem?_eq_some_iff.mp hp
  have hlen : ((ps.take k).map f).length = k := by
    simp [List.length_take]; omega
  rw [List.take_succ, List.getElem?_eq_getElem hk]
  simp only [Option.toList, List.map_append, List.map_cons, List.map_nil, List.append_assoc,
    List.singleton_append]
  rw [List.set_append]
  simp only [hlen, lt_self_iff_false, if_false, Nat.sub_self]
  rw [List.drop_eq_getElem_cons hr, List.set_cons_zero]

theorem gameResult_fold (dVal : Int) (gs : GameState) (k : Nat) (hk : k ≤ gs.Players.length)
    (hr : gs.Players.length ≤ gs.Results.length) :
    (List.range k).foldlM (gameResultStep dVal) gs =
      some { gs with
        Results := (gs.Players.take k).map (resultLabel dVal) ++ gs.Results.drop k } := by
  induction k with
  | zero => simp
  | succ k ih =>
    rw [List.range_succ, List.foldlM_append, ih (by omega)]
    have hp : gs.Players[k]? = some (gs.Players.get ⟨k, by omega⟩) :=
      List.getElem?_eq_getElem (by omega)
    have hlen : k < ((gs.Players.take k).map (resultLabel dVal) ++ gs.Results.drop k).length := by
      simp [List.length_take]; omega
    simp only [Option.some_bind, List.foldlM_cons, List.foldlM_nil, gameResultStep, hp, hlen,
      if_true, Option.bind_eq_bind, Option.pure_def, Option.some.injEq]
    rw [set_results_step _ _ _ _ _ hp (by omega)]

/-- The effect of `gameResult` in closed form. -/
theorem gameResult_eq (gs : GameState) (hr : gs.Players.length ≤ gs.Results.length) :
    gameResult gs = some { gs with
      Results := gs.Players.map (resultLabel (handValue gs.Dealer).1)
        ++ gs.Results.drop gs.Players.length } := by
  unfold gameResult
  rw [gameResult_fold _ gs _ (le_refl _) hr, List.take_length]

/-- C7.  Where the results array has an entry for every player (otherwise the write
`gs.Results[i]` panics), `gameResult` returns, and in the game it leaves `results[i]` is,
for each player `i`, "Bust" if player `i` has the busted flag; otherwise "Win" if the
dealer's total exceeds 21 or the player's total exceeds the dealer's; otherwise "Lose"
if the player's total is below the dealer's; otherwise "Push".  Deck, dealer, players,
turn, status, the length of the results array and its entries beyond the players are as
before. -/
theorem gameResult_scores_each_player (gs : GameState)
    (hr : gs.Players.length ≤ gs.Results.length) :
    ∃ scored : GameState, gameResult gs = some scored ∧
      (∀ (i : Nat) (player : Hand), gs.Players[i]? = some player →
        scored.Results[i]? = some
          (if player.Busted = true then "Bust"
           else if (handValue gs.Dealer).1 > 21 ∨ (handValue player).1 > (handValue gs.Dealer).1
             then "Win"
           else if (handValue player).1 < (handValue gs.Dealer).1 then "Lose"
           else "Push")) ∧
      scored.Deck = gs.Deck ∧ scored.Dealer = gs.Dealer ∧ scored.Players = gs.Players ∧
      scored.Turn = gs.Turn ∧ scored.Status = gs.Status ∧
      scored.Results.length = gs.Results.length ∧
      (∀ i : Nat, gs.Players.length ≤ i → scored.Results[i]? = gs.Results[i]?) := by
  refine ⟨_, gameResult_eq gs hr, ?_, rfl, rfl, rfl, rfl, rfl, ?_, ?_⟩
  · intro i player hp
    obtain ⟨hi, rfl⟩ := List.getElem?_eq_some_iff.mp hp
    simp only
    rw [List.getElem?_append_left (by simpa using hi), List.getElem?_map, hp]
    rfl
  · simp only [List.length_append, List.length_map, List.length_drop]
    omega
  · intro i hi
    simp only
    rw [List.getElem?_append_right (by simpa using hi), List.getElem?_drop]
    simp only [List.length_map]
    congr 1
    omega

/-- C7 at `lastMoveGame`: player 1, who has the busted flag, is scored "Bust", and the
deck is as before. -/
theorem gameResult_scores_each_player_witness :
    lastMoveGame.Players.length ≤ lastMoveGame.Results.length ∧
    ∃ scored : GameState, gameResult lastMoveGame = some scored ∧
      scored.Results[1]? = some "Bust" ∧ scored.Deck = lastMoveGame.Deck :=
  ⟨by decide,
   let ⟨scored, h1, h2, h3, _⟩ := gameResult_scores_each_player lastMoveGame (by decide)
   ⟨scored, h1, h2 1 _ rfl, h3⟩⟩

/-! ## The game invariant -/

theorem handValue_congr (h1 h2 : Hand) (hc : h1.Cards = h2.Cards) :
    handValue h1 = handValue h2 := by
  unfold handValue; rw [hc]

theorem handValue_le_of_hard_le (h : Hand) (hh : hardTotal h.Cards ≤ 21) :
    (handValue h).1 ≤ 21 := by
  obtain ⟨k, _, hval, hle, _⟩ := handValue_closed h
  rcases hle with h1 | h1
  · omega
  · subst h1; simp at hval; omega

theorem hardPoints_bounds : ∀ c ∈ fullDeck, 1 ≤ hardPoints c ∧ hardPoints c ≤ 10 := by decide

theorem hardTotal_fullDeck : hardTotal fullDeck = 340 := by decide

theorem hardTotal_nonneg (cards : List Card) (h : ∀ c ∈ cards, c ∈ fullDeck) :
    0 ≤ hardTotal cards := by
  induction cards with
  | nil => simp [hardTotal]
  | cons c cs ih =>
    rw [hardTotal_cons]
    have := (hardPoints_bounds c (h c (List.mem_cons_self _ _))).1
    have := ih (fun x hx => h x (List.mem_cons_of_mem _ hx))
    omega

theorem hardTotal_flatten_cons (l : List Card) (ls : List (List Card)) :
    hardTotal (l :: ls).flatten = hardTotal l + hardTotal ls.flatten := by
  simp [hardTotal]

theorem flatten_set_append_perm (players : List Hand) (p : Nat) (h : Hand) (c : Card)
    (d b : Bool) (hp : players[p]? = some h) :
    ((players.set p { Cards := h.Cards ++ [c], Done := d, Busted := b }).map
      Hand.Cards).flatten.Perm (c :: (players.map Hand.Cards).flatten) := by
  induction players generalizing p with
  | nil => simp at hp
  | cons x xs ih =>
    cases p with
    | zero =>
      simp only [List.getElem?_cons_zero, Option.some.injEq] at hp
      subst hp
      simp only [List.set_cons_zero, List.map_cons, List.flatten_cons, List.append_assoc]
      rw [List.perm_iff_count]
      intro y
      simp only [List.count_append, List.count_cons, List.count_nil]
      omega
    | succ p =>
      simp only [List.getElem?_cons_succ] at hp
      simp only [List.set_cons_succ, List.map_cons, List.flatten_cons]
      have := ih p hp
      rw [List.perm_iff_count] at this ⊢
      intro y
      have hy := this y
      simp only [List.count_append, List.count_cons] at hy ⊢
      omega

theorem map_cards_set_flags (players : List Hand) (p : Nat) (h : Hand) (d b : Bool)
    (hp : players[p]? = some h) :
    (players.set p { Cards := h.Cards, Done := d, Busted := b }).map Hand.Cards
      = players.map Hand.Cards := by
  induction players generalizing p with
  | nil => simp
  | cons x xs ih =>
    cases p with
    | zero =>
      simp only [List.getElem?_cons_zero, Option.some.injEq] at hp
      subst hp
      simp
    | succ p =>
      simp only [List.getElem?_cons_succ] at hp
      simp only [List.set_cons_succ, List.map_cons, ih p hp]

theorem firstNotDone_eq_none (players : List Hand) :
    firstNotDone players = none ↔ ∀ h ∈ players, h.Done = true := by
  induction players with
  | nil => simp [firstNotDone]
  | cons x xs ih =>
    unfold firstNotDone
    by_cases hx : x.Done = true
    · simp [hx, ih]
    · simp [hx]

theorem firstNotDone_eq_some (players : List Hand) (i : Nat) :
    firstNotDone players = some i ↔
      (∃ h, players[i]? = some h ∧ h.Done = false) ∧
      ∀ j h, j < i → players[j]? = some h → h.Done = true := by
  induction players generalizing i with
  | nil => simp [firstNotDone]
  | cons x xs ih =>
    unfold firstNotDone
    by_cases hx : x.Done = true
    · simp only [hx, if_true, Option.map_eq_some']
      constructor
      · rintro ⟨k, hk, rfl⟩
        obtain ⟨hex, hall⟩ := (ih k).mp hk
        refine ⟨by simpa using hex, ?_⟩
        intro j h hj hjh
        cases j with
        | zero => simp at hjh; subst hjh; exact hx
        | succ j => exact hall j h (by omega) (by simpa using hjh)
      · rintro ⟨⟨h, hh, hd⟩, hall⟩
        cases i with
        | zero => simp at hh; subst hh; simp [hx] at hd
        | succ i =>
          refine ⟨i, (ih i).mpr ⟨⟨h, by simpa using hh, hd⟩, ?_⟩, rfl⟩
          intro j hj hlt hjh
          exact hall (j + 1) hj (by omega) (by simpa using hjh)
    · rw [if_neg hx]
      simp only [Option.some.injEq]
      constructor
      · intro h0
        subst h0
        exact ⟨⟨x, by simp, by simpa using hx⟩, by intro j h hj; omega⟩
      · rintro ⟨_, hall⟩
        cases i with
        | zero => rfl
        | succ i => exact absurd (hall 0 x (by omega) (by simp)) hx
theorem dealCard_of_cons (e : Entropy) (gs : GameState) (hand : HandRef) (c : Card)
    (rest : List Card) (hd : gs.Deck = c :: rest) :
    dealCard e gs hand = (e, appendCard { gs with Deck := rest } hand c) := by
  simp [dealCard, hd]

theorem hardTotal_players_le (players : List Hand) (hlen : players.length = 3)
    (hh : ∀ h ∈ players, hardTotal h.Cards ≤ 31) :
    hardTotal (players.map Hand.Cards).flatten ≤ 93 := by
  match players, hlen with
  | [p0, p1, p2], _ =>
    have h0 := hh p0 (by simp)
    have h1 := hh p1 (by simp)
    have h2 := hh p2 (by simp)
    simp only [List.map_cons, List.map_nil, hardTotal_flatten_cons, List.flatten_nil]
    have : hardTotal [] = 0 := rfl
    omega

/-- While every player holds at most 31 points and the dealer at most 26, counting aces
as 1, the deck cannot be empty: the 52 cards carry 340 points. -/
theorem deck_nonempty (gs : GameState) (hlen : gs.Players.length = 3)
    (hperm : (allCards gs).Perm fullDeck)
    (hh : ∀ h ∈ gs.Players, hardTotal h.Cards ≤ 31)
    (hd : hardTotal gs.Dealer.Cards ≤ 26) :
    ∃ c rest, gs.Deck = c :: rest ∧ c ∈ fullDeck := by
  have hsum : hardTotal (allCards gs) = 340 := by
    rw [← hardTotal_fullDeck]
    exact (hperm.map hardPoints).sum_eq
  have hpl := hardTotal_players_le gs.Players hlen hh
  simp only [allCards, hardTotal_append] at hsum
  match hdk : gs.Deck with
  | [] =>
    rw [hdk] at hsum
    have : hardTotal [] = 0 := rfl
    omega
  | c :: rest =>
    refine ⟨c, rest, rfl, hperm.mem_iff.mp ?_⟩
    simp [allCards, hdk]

theorem HandOk.of_not_done {h : Hand} (ok : HandOk h) (hd : h.Done = false) :
    h.Busted = false ∧ hardTotal h.Cards ≤ 21 := by
  have hb : h.Busted = false := by
    cases hB : h.Busted with
    | false => rfl
    | true => have := ok.busted_done hB; simp [hd] at this
  refine ⟨hb, ?_⟩
  have h1 : ¬ 21 < (handValue h).1 := fun hlt => by
    have := ok.busted_iff.mpr hlt; simp [hb] at this
  have := hardTotal_le_handValue h
  omega

theorem hit_state (e : Entropy) (gs : GameState) (p : Nat) (h : Hand) (c : Card)
    (rest : List Card) (hp : gs.Players[p]? = some h) (hdone : h.Done = false)
    (hbust : h.Busted = false) (hd : gs.Deck = c :: rest) :
    (dealCard e gs (.player p)).1 = e ∧
    markBusted (dealCard e gs (.player p)).2 p =
      { gs with Deck := rest, Players := gs.Players.set p (hitHand h c) } := by
  have hlt : p < gs.Players.length := (List.getElem?_eq_some_iff.mp hp).1
  rw [dealCard_of_cons e gs _ c rest hd]
  refine ⟨rfl, ?_⟩
  simp only [appendCard, hp, markBusted, List.getElem?_set_self hlt, hitHand, hdone, hbust]
  have hv : isBusted { Cards := h.Cards ++ [c], Done := false, Busted := false }
      = decide (21 < (handValue { Cards := h.Cards ++ [c], Done := false, Busted := false }).1) :=
    rfl
  by_cases hb : isBusted { Cards := h.Cards ++ [c], Done := false, Busted := false } = true
  · simp [hb, List.set_set]
  · simp only [Bool.not_eq_true] at hb
    simp [hb]

theorem hitHand_ok (h : Hand) (c : Card) (ok : HandOk h) (hdone : h.Done = false)
    (hc : c ∈ fullDeck) : HandOk (hitHand h c) := by
  have hv : handValue (hitHand h c)
      = handValue { Cards := h.Cards ++ [c], Done := false, Busted := false } :=
    handValue_congr _ _ rfl
  refine ⟨?_, ?_, ?_⟩
  · rw [hv]; simp [hitHand, isBusted]
  · intro hb; exact hb
  · have := (ok.of_not_done hdone).2
    have := (hardPoints_bounds c hc).2
    simp only [hitHand, hardTotal_append, hardTotal_cons]
    have : hardTotal [] = 0 := rfl
    omega

theorem cardsInv_hit (e : Entropy) (gs : GameState) (p : Nat) (h : Hand)
    (inv : CardsInv gs) (hp : gs.Players[p]? = some h) (hdone : h.Done = false) :
    (dealCard e gs (.player p)).1 = e ∧
    CardsInv (markBusted (dealCard e gs (.player p)).2 p) := by
  have hmem : h ∈ gs.Players := List.getElem?_mem hp
  have ok := inv.hands h hmem
  obtain ⟨c, rest, hd, hc⟩ := deck_nonempty gs inv.players_len inv.perm
    (fun x hx => (inv.hands x hx).hard_le) inv.dealer_hard
  obtain ⟨he, hs⟩ := hit_state e gs p h c rest hp hdone (ok.of_not_done hdone).1 hd
  refine ⟨he, ?_⟩
  rw [hs]
  refine ⟨by simp [inv.players_len], inv.results_len, ?_, ?_, inv.dealer_hard, inv.dealer_flags⟩
  · refine List.Perm.trans ?_ inv.perm
    have hfl := flatten_set_append_perm gs.Players p h c (hitHand h c).Done
      (hitHand h c).Busted hp
    have hfl2 : ((gs.Players.set p (hitHand h c)).map Hand.Cards).flatten.Perm
        (c :: (gs.Players.map Hand.Cards).flatten) := hfl
    rw [List.perm_iff_count] at hfl2 ⊢
    intro y
    have hy := hfl2 y
    simp only [allCards, hd, List.count_append, List.count_cons] at hy ⊢
    omega
  · intro x hx
    rcases List.mem_or_eq_of_mem_set hx with hx | hx
    · exact inv.hands x hx
    · rw [hx]; exact hitHand_ok h c ok hdone hc

theorem cardsInv_stand (gs : GameState) (p : Nat) (h : Hand)
    (inv : CardsInv gs) (hp : gs.Players[p]? = some h) :
    CardsInv (markDone gs p) := by
  have hmem : h ∈ gs.Players := List.getElem?_mem hp
  have ok := inv.hands h hmem
  simp only [markDone, hp]
  refine ⟨by simp [inv.players_len], inv.results_len, ?_, ?_, inv.dealer_hard, inv.dealer_flags⟩
  · have := map_cards_set_flags gs.Players p h true h.Busted hp
    simp only [allCards]
    rw [this]
    exact inv.perm
  · intro x hx
    rcases List.mem_or_eq_of_mem_set hx with hx | hx
    · exact inv.hands x hx
    · rw [hx]
      refine ⟨?_, fun _ => rfl, ok.hard_le⟩
      have hv : handValue { Cards := h.Cards, Done := true, Busted := h.Busted } = handValue h :=
        handValue_congr _ _ rfl
      rw [hv]
      exact ok.busted_iff
theorem dealer_draw (e : Entropy) (gs : GameState) (inv : CardsInv gs)
    (hlt : (handValue gs.Dealer).1 < 17) :
    ∃ c rest, gs.Deck = c :: rest ∧
      dealCard e gs .dealer =
        (e, { gs with Deck := rest,
                      Dealer := { gs.Dealer with Cards := gs.Dealer.Cards ++ [c] } }) ∧
      CardsInv (dealCard e gs .dealer).2 := by
  obtain ⟨c, rest, hd, hc⟩ := deck_nonempty gs inv.players_len inv.perm
    (fun x hx => (inv.hands x hx).hard_le) inv.dealer_hard
  have heq := dealCard_of_cons e gs .dealer c rest hd
  refine ⟨c, rest, hd, heq, ?_⟩
  rw [heq]
  refine ⟨inv.players_len, inv.results_len, ?_, inv.hands, ?_, inv.dealer_flags⟩
  · refine List.Perm.trans ?_ inv.perm
    rw [List.perm_iff_count]
    intro y
    simp only [allCards, appendCard, hd, List.count_append, List.count_cons, List.count_nil]
    omega
  · have := hardTotal_le_handValue gs.Dealer
    have := (hardPoints_bounds c hc).2
    simp only [appendCard, hardTotal_append, hardTotal_cons]
    have : hardTotal [] = 0 := rfl
    omega

/-- The dealer loop in a game that satisfies the invariant: no new deck is needed, only
the deck and the dealer's cards change, and the dealer ends with at least 17. -/
theorem dealerLoop_inv (e : Entropy) (gs : GameState) (inv : CardsInv gs) :
    (dealerLoop e gs).1 = e ∧ CardsInv (dealerLoop e gs).2 ∧
    (dealerLoop e gs).2.Players = gs.Players ∧ (dealerLoop e gs).2.Results = gs.Results ∧
    (dealerLoop e gs).2.Turn = gs.Turn ∧ (dealerLoop e gs).2.Status = gs.Status ∧
    17 ≤ (handValue (dealerLoop e gs).2.Dealer).1 := by
  induction e, gs using dealerLoop.induct with
  | case1 e gs hlt ih =>
    obtain ⟨c, rest, hd, heq, hinv⟩ := dealer_draw e gs inv hlt
    rw [dealerLoop, if_pos hlt]
    have ih := ih hinv
    rw [heq] at ih ⊢
    exact ih
  | case2 e gs hge =>
    rw [dealerLoop, if_neg hge]
    exact ⟨rfl, inv, rfl, rfl, rfl, rfl, not_lt.mp hge⟩

/-- The dealer loop on any game: the dealer ends with at least 17, and players, results,
turn and status are not touched. -/
theorem dealerLoop_spec (e : Entropy) (gs : GameState) :
    17 ≤ (handValue (dealerLoop e gs).2.Dealer).1 ∧
    (dealerLoop e gs).2.Players = gs.Players ∧ (dealerLoop e gs).2.Results = gs.Results ∧
    (dealerLoop e gs).2.Turn = gs.Turn ∧ (dealerLoop e gs).2.Status = gs.Status := by
  induction e, gs using dealerLoop.induct with
  | case1 e gs hlt ih =>
    obtain ⟨c, rest, _, heq⟩ := dealCard_dealer_eq e gs
    rw [dealerLoop, if_pos hlt]
    rw [heq] at ih ⊢
    exact ih
  | case2 e gs hge =>
    rw [dealerLoop, if_neg hge]
    exact ⟨not_lt.mp hge, rfl, rfl, rfl, rfl⟩

theorem advanceTurn_inv (e : Entropy) (gs : GameState) (inv : CardsInv gs)
    (hplay : gs.Status = "playing") :
    ∃ s, advanceTurn e gs = some s ∧ s.1 = e ∧ GameInv s.2 := by
  unfold advanceTurn
  match hf : firstNotDone gs.Players with
  | some i =>
    refine ⟨_, rfl, rfl, ?_, ?_⟩
    · exact ⟨inv.players_len, inv.results_len, inv.perm, inv.hands, inv.dealer_hard,
        inv.dealer_flags⟩
    · exact ⟨Or.inl hf, Or.inl ⟨hplay, by simp [hf]⟩⟩
  | none =>
    obtain ⟨he, linv, hpl, hres, _, _, _⟩ := dealerLoop_inv e gs inv
    have hr : ({ (dealerLoop e gs).2 with Status := "finished" } : GameState).Players.length
        ≤ ({ (dealerLoop e gs).2 with Status := "finished" } : GameState).Results.length := by
      simp [linv.players_len, linv.results_len]
    simp only [gameResult_eq _ hr]
    refine ⟨_, rfl, he, ?_, ?_⟩
    · refine ⟨linv.players_len, ?_, linv.perm, linv.hands, linv.dealer_hard, linv.dealer_flags⟩
      simp [linv.players_len, linv.results_len]
    · refine ⟨Or.inr ⟨?_, rfl⟩, Or.inr ⟨rfl, ?_⟩⟩
      · simpa [hpl] using hf
      · simpa [hpl] using hf

/-! ## The action handler, case by case -/

theorem splitPath_room (path : String) (h : ¬ (splitPath path).length < 4) :
    (splitPath path)[3]? = some ((splitPath path).getD 3 "") := by
  rw [List.getD_eq_getElem?_getD, List.getElem?_eq_getElem (by omega)]
  rfl

theorem splitPath_room_of (path roomid : String) (h : (splitPath path)[3]? = some roomid) :
    ¬ (splitPath path).length < 4 ∧ (splitPath path).getD 3 "" = roomid := by
  obtain ⟨hlt, heq⟩ := List.getElem?_eq_some_iff.mp h
  refine ⟨by omega, ?_⟩
  rw [List.getD_eq_getElem?_getD, h]
  rfl

/-- An acceptable request reaches the tail of `handleAction`. -/
theorem handleAction_accept (e : Entropy) (games : Registry) (path roomid : String)
    (req : ActionRequest) (gs : GameState) (player : Hand)
    (hseg : (splitPath path)[3]? = some roomid) (hg : games roomid = some gs)
    (hplay : gs.Status = "playing") (h0 : 0 ≤ req.Player) (h2 : req.Player ≤ 2)
    (hp : gs.Players[req.Player.toNat]? = some player) (hd : player.Done = false)
    (ha : req.Action = "hit" ∨ req.Action = "stand") :
    handleAction e games path (some req) =
      respond games roomid (advanceTurn (afterMove e gs req).1 (afterMove e gs req).2) := by
  obtain ⟨hlen, hroom⟩ := splitPath_room_of path roomid hseg
  have hrange : ¬ (req.Player < 0 ∨ req.Player > 2) := by omega
  unfold handleAction afterMove
  simp only [hlen, if_false, hroom, hg, hplay, ne_eq, not_true_eq_false, hrange, hp, hd,
    Bool.false_eq_true]
  rcases ha with ha | ha
  · simp [ha]
  · have : ¬ req.Action = "hit" := by rw [ha]; decide
    simp [ha]

/-- A request that is not acceptable is answered with status 400, and neither the
registry nor the entropy stream is touched; the only other outcome is the panic of
`gs.Players[req.Player]` on a game with fewer than three players. -/
theorem handleAction_reject (e : Entropy) (games : Registry) (path : String)
    (body : Option ActionRequest)
    (hno : ∀ roomid req, (splitPath path)[3]? = some roomid → body = some req →
      ¬ Acceptable games roomid req) :
    (∃ msg, handleAction e games path body = some (e, games, .error 400 msg)) ∨
    (handleAction e games path body = none ∧
      ∃ roomid gs req, (splitPath path)[3]? = some roomid ∧ games roomid = some gs ∧
        gs.Status = "playing" ∧ body = some req ∧ gs.Players[req.Player.toNat]? = none ∧
        gs.Players.length < 3) := by
  unfold handleAction
  by_cases hlen : (splitPath path).length < 4
  · exact Or.inl ⟨"Missing gameroomid", by simp [hlen]⟩
  · have hseg := splitPath_room path hlen
    simp only [hlen, if_false]
    match hg : games ((splitPath path).getD 3 "") with
    | none => exact Or.inl ⟨_, rfl⟩
    | some gs =>
      simp only
      by_cases hplay : gs.Status = "playing"
      · simp only [hplay, ne_eq, not_true_eq_false, if_false]
        match body with
        | none => exact Or.inl ⟨_, rfl⟩
        | some req =>
          simp only
          by_cases hrange : req.Player < 0 ∨ req.Player > 2
          · exact Or.inl ⟨"Invalid player", by simp [hrange]⟩
          · simp only [hrange, if_false]
            by_cases hlt : req.Player.toNat < gs.Players.length
            · rw [List.getElem?_eq_getElem hlt]
              simp only
              by_cases hd : gs.Players[req.Player.toNat].Done = true
              · exact Or.inl ⟨"Player already finished", by simp [hd]⟩
              · have hna : ¬ (req.Action = "hit" ∨ req.Action = "stand") := by
                  intro ha
                  exact hno _ req hseg rfl ⟨gs, _, hg, hplay, by omega, by omega,
                    List.getElem?_eq_getElem hlt, by simpa using hd, ha⟩
                push_neg at hna
                exact Or.inl ⟨"Unknown action", by simp [hd, hna.1, hna.2]⟩
            · have hnone : gs.Players[req.Player.toNat]? = none :=
                List.getElem?_eq_none (by omega)
              rw [hnone]
              exact Or.inr ⟨rfl, _, gs, req, hseg, hg, hplay, rfl, hnone, by omega⟩
      · exact Or.inl ⟨"Game not found or not in playing state", by simp [hplay]⟩

theorem respond_eq_some (games : Registry) (roomid : String)
    (s : Option (Entropy × GameState)) (out : Entropy × Registry × Response)
    (h : respond games roomid s = some out) :
    ∃ gs, s = some (out.1, gs) ∧ out.2.1 = Function.update games roomid (some gs) ∧
      out.2.2 = .json (encode gs) := by
  match s, h with
  | some (e1, gs), h =>
    simp only [respond, Option.map_some', Option.some.injEq] at h
    subst h
    exact ⟨gs, rfl, rfl, rfl⟩

/-- Every outcome of `handleAction` is of one of two kinds: the request was not
acceptable and nothing changed, or it was acceptable and the game of the room was
replaced by the result of `advanceTurn` after the move. -/
theorem handleAction_cases (e : Entropy) (games : Registry) (path : String)
    (body : Option ActionRequest) (out : Entropy × Registry × Response)
    (h : handleAction e games path body = some out) :
    (∃ msg, out = (e, games, .error 400 msg) ∧
      ∀ roomid req, (splitPath path)[3]? = some roomid → body = some req →
        ¬ Acceptable games roomid req) ∨
    (∃ roomid req gs after,
      (splitPath path)[3]? = some roomid ∧ body = some req ∧ Acceptable games roomid req ∧
      games roomid = some gs ∧
      advanceTurn (afterMove e gs req).1 (afterMove e gs req).2 = some (out.1, after) ∧
      out.2.1 = Function.update games roomid (some after) ∧
      out.2.2 = .json (encode after)) := by
  by_cases hacc : ∃ roomid req, (splitPath path)[3]? = some roomid ∧ body = some req ∧
      Acceptable games roomid req
  · obtain ⟨roomid, req, hseg, hbody, hA⟩ := hacc
    obtain ⟨gs, player, hg, hplay, h0, h2, hp, hd, ha⟩ := hA
    subst hbody
    rw [handleAction_accept e games path roomid req gs player hseg hg hplay h0 h2 hp hd ha] at h
    obtain ⟨after, hadv, hreg, hresp⟩ := respond_eq_some _ _ _ _ h
    exact Or.inr ⟨roomid, req, gs, after, hseg, rfl, ⟨gs, player, hg, hplay, h0, h2, hp, hd, ha⟩,
      hg, hadv, hreg, hresp⟩
  · have hno : ∀ roomid req, (splitPath path)[3]? = some roomid → body = some req →
        ¬ Acceptable games roomid req := fun roomid req hs hb hA => hacc ⟨roomid, req, hs, hb, hA⟩
    rcases handleAction_reject e games path body hno with ⟨msg, hmsg⟩ | ⟨hnone, _⟩
    · rw [hmsg] at h
      exact Or.inl ⟨msg, (Option.some.inj h).symm, hno⟩
    · rw [hnone] at h; exact absurd h (by simp)

/-! ## The invariant holds in every reachable registry -/

theorem afterMove_inv (e : Entropy) (gs : GameState) (req : ActionRequest) (player : Hand)
    (inv : CardsInv gs) (hp : gs.Players[req.Player.toNat]? = some player)
    (hd : player.Done = false) :
    (afterMove e gs req).1 = e ∧ CardsInv (afterMove e gs req).2 ∧
      (afterMove e gs req).2.Status = gs.Status := by
  unfold afterMove
  by_cases ha : req.Action = "hit"
  · rw [if_pos ha]
    obtain ⟨he, hinv⟩ := cardsInv_hit e gs _ player inv hp hd
    refine ⟨he, hinv, ?_⟩
    obtain ⟨c, rest, hdeck, _⟩ := deck_nonempty gs inv.players_len inv.perm
      (fun x hx => (inv.hands x hx).hard_le) inv.dealer_hard
    rw [(hit_state e gs _ player c rest hp hd
      ((inv.hands player (List.getElem?_mem hp)).of_not_done hd).1 hdeck).2]
  · rw [if_neg ha]
    refine ⟨rfl, cardsInv_stand gs _ player inv hp, ?_⟩
    simp [markDone, hp]

theorem registryInv_update (games : Registry) (roomid : String) (gs : GameState)
    (inv : RegistryInv games) (hgs : GameInv gs) :
    RegistryInv (Function.update games roomid (some gs)) := by
  intro r g hg
  by_cases hr : r = roomid
  · subst hr
    rw [Function.update_same] at hg
    exact (Option.some.inj hg) ▸ hgs
  · rw [Function.update_noteq hr] at hg
    exact inv r g hg

/-- In a registry whose games satisfy the invariant, `handleAction` does not panic and
leaves a registry whose games satisfy the invariant. -/
theorem handleAction_inv (e : Entropy) (games : Registry) (path : String)
    (body : Option ActionRequest) (inv : RegistryInv games) :
    ∃ out, handleAction e games path body = some out ∧ RegistryInv out.2.1 := by
  by_cases hacc : ∃ roomid req, (splitPath path)[3]? = some roomid ∧ body = some req ∧
      Acceptable games roomid req
  · obtain ⟨roomid, req, hseg, hbody, gs, player, hg, hplay, h0, h2, hp, hd, ha⟩ := hacc
    subst hbody
    rw [handleAction_accept e games path roomid req gs player hseg hg hplay h0 h2 hp hd ha]
    obtain ⟨_, hci, hst⟩ := afterMove_inv e gs req player (inv roomid gs hg).cards hp hd
    obtain ⟨s, hs, _, hgi⟩ := advanceTurn_inv (afterMove e gs req).1 _ hci (hst.trans hplay)
    rw [hs]
    exact ⟨_, rfl, registryInv_update games roomid s.2 inv hgi⟩
  · have hno : ∀ roomid req, (splitPath path)[3]? = some roomid → body = some req →
        ¬ Acceptable games roomid req := fun roomid req hs hb hA => hacc ⟨roomid, req, hs, hb, hA⟩
    rcases handleAction_reject e games path body hno with
      ⟨msg, hmsg⟩ | ⟨_, r, g, _, _, hg, _, _, _, hlt⟩
    · exact ⟨_, hmsg, inv⟩
    · have := (inv r g hg).cards.players_len
      omega

theorem handOk_two (a b : Card) (ha : a ∈ fullDeck) (hb : b ∈ fullDeck) :
    HandOk { Cards := [a, b], Done := false, Busted := false } := by
  have h1 := (hardPoints_bounds a ha).2
  have h2 := (hardPoints_bounds b hb).2
  have hh : hardTotal [a, b] ≤ 20 := by
    simp only [hardTotal, List.map_cons, List.map_nil, List.sum_cons, List.sum_nil]
    omega
  refine ⟨?_, by simp, by simp only; omega⟩
  have := handValue_le_of_hard_le { Cards := [a, b], Done := false, Busted := false }
    (by simp only; omega)
  constructor
  · intro h; simp at h
  · intro h; omega

theorem startGame_inv (e : Entropy) (roomid : String) : GameInv (startGame e roomid).2 := by
  obtain ⟨c0, c1, c2, c3, c4, c5, c6, c7, rest, hd, _, heq⟩ := startGame_eq e roomid
  rw [heq]
  have hperm := newDeck_perm_fullDeck (e 0)
  rw [hd] at hperm
  have hmem : ∀ c ∈ [c0, c1, c2, c3, c4, c5, c6, c7], c ∈ fullDeck := by
    intro c hc
    exact hperm.mem_iff.mp (List.mem_append_left rest hc)
  refine ⟨⟨rfl, rfl, ?_, ?_, ?_, ⟨rfl, rfl⟩⟩, ⟨Or.inl rfl, Or.inl ⟨rfl, by simp [firstNotDone]⟩⟩⟩
  · refine List.Perm.trans ?_ hperm
    rw [List.perm_iff_count]
    intro y
    simp only [allCards, List.map_cons, List.map_nil, List.flatten_cons, List.flatten_nil,
      List.count_append, List.count_cons, List.count_nil]
    ring
  · intro h hh
    simp only [List.mem_cons, List.mem_nil_iff, or_false] at hh
    rcases hh with rfl | rfl | rfl
    · exact handOk_two c0 c4 (hmem c0 (by simp)) (hmem c4 (by simp))
    · exact handOk_two c1 c5 (hmem c1 (by simp)) (hmem c5 (by simp))
    · exact handOk_two c2 c6 (hmem c2 (by simp)) (hmem c6 (by simp))
  · have h1 := (hardPoints_bounds c3 (hmem c3 (by simp))).2
    have h2 := (hardPoints_bounds c7 (hmem c7 (by simp))).2
    simp only [hardTotal, List.map_cons, List.map_nil, List.sum_cons, List.sum_nil]
    omega

theorem handleStart_inv (e : Entropy) (games : Registry) (path : String)
    (inv : RegistryInv games) : RegistryInv (handleStart e games path).2.1 := by
  unfold handleStart
  by_cases hlen : (splitPath path).length < 4
  · simpa [hlen] using inv
  · simp only [hlen, if_false]
    exact registryInv_update games _ _ inv (startGame_inv e _)

theorem handleState_registry (games : Registry) (path : String) :
    (handleState games path).1 = games := by
  unfold handleState
  by_cases hlen : (splitPath path).length < 4
  · simp [hlen]
  · simp only [hlen, if_false]
    cases games ((splitPath path).getD 3 "") <;> rfl

/-- Every game held by a reachable registry satisfies the game invariant. -/
theorem reachable_inv (games : Registry) (h : Reachable games) : RegistryInv games := by
  induction h with
  | init => intro r g hg; simp at hg
  | start e games path _ ih => exact handleStart_inv e games path ih
  | state games path _ ih => rw [handleState_registry]; exact ih
  | action e games path body out _ hact ih =>
    obtain ⟨out2, h2, hinv⟩ := handleAction_inv e games path body ih
    rw [hact] at h2
    exact (Option.some.inj h2) ▸ hinv

/-! ## Invariants of reachable games -/

theorem startedRegistry_reachable : Reachable startedRegistry :=
  Reachable.start zeroEntropy (fun _ => none) "/game/start/r1" Reachable.init

theorem splitPath_start_r1 : splitPath "/game/start/r1" = ["", "game", "start", "r1"] := by
  decide

theorem startedRegistry_r1 : startedRegistry "r1" = some (startGame zeroEntropy "r1").2 := by
  simp [startedRegistry, handleStart, splitPath_start_r1]

/-- C4.  In every game held by a reachable registry (a game made by `startGame` and
carried through any sequence of requests, accepted or rejected), the deck, the dealer's
cards and the three players' cards together are exactly one 52-card set: a permutation
of the full deck, without duplicates, every (suit, rank) pair occurring exactly once. -/
theorem reachable_game_is_one_full_deck (games : Registry) (h : Reachable games)
    (roomid : String) (gs : GameState) (hg : games roomid = some gs) :
    gs.Players.length = 3 ∧
    (allCards gs).Perm fullDeck ∧
    (allCards gs).Nodup ∧
    (allCards gs).length = 52 ∧
    (∀ suit ∈ suits, ∀ value ∈ values, (allCards gs).count (Card.mk suit value) = 1) ∧
    (∀ card ∈ allCards gs, card.Suit ∈ suits ∧ card.Value ∈ values) := by
  have inv := (reachable_inv games h roomid gs hg).cards
  have hp := inv.perm
  refine ⟨inv.players_len, hp, hp.nodup_iff.mpr fullDeck_nodup, ?_, ?_, ?_⟩
  · rw [hp.length_eq]; decide
  · intro suit hs value hv
    rw [hp.count_eq]
    exact List.count_eq_one_of_mem fullDeck_nodup ((mem_fullDeck _).mpr ⟨hs, hv⟩)
  · intro card hc
    exact (mem_fullDeck card).mp (hp.mem_iff.mp hc)

/-- C4 at the game of room "r1" right after its start. -/
theorem reachable_game_is_one_full_deck_witness :
    Reachable startedRegistry ∧
    startedRegistry "r1" = some (startGame zeroEntropy "r1").2 ∧
    (allCards (startGame zeroEntropy "r1").2).Perm fullDeck ∧
    (allCards (startGame zeroEntropy "r1").2).Nodup :=
  ⟨startedRegistry_reachable, startedRegistry_r1,
   (reachable_game_is_one_full_deck startedRegistry startedRegistry_reachable "r1" _
      startedRegistry_r1).2.1,
   (reachable_game_is_one_full_deck startedRegistry startedRegistry_reachable "r1" _
      startedRegistry_r1).2.2.1⟩

/-- C5.  In every game held by a reachable registry, `Turn` is the lowest index of a
player that is not done, and it is 3 exactly when all three players are done. -/
theorem turn_is_first_player_not_done (games : Registry) (h : Reachable games)
    (roomid : String) (gs : GameState) (hg : games roomid = some gs) :
    gs.Players.length = 3 ∧
    (∀ (i : Nat) (player : Hand), gs.Players[i]? = some player → player.Done = false →
      (∀ (j : Nat) (other : Hand), j < i → gs.Players[j]? = some other → other.Done = true) →
      gs.Turn = i) ∧
    ((∃ player ∈ gs.Players, player.Done = false) →
      (∃ player, gs.Players[gs.Turn]? = some player ∧ player.Done = false) ∧
      ∀ (j : Nat) (other : Hand), j < gs.Turn → gs.Players[j]? = some other →
        other.Done = true) ∧
    (gs.Turn = 3 ↔ ∀ player ∈ gs.Players, player.Done = true) := by
  have inv := reachable_inv games h roomid gs hg
  have hlen := inv.cards.players_len
  refine ⟨hlen, ?_, ?_, ?_⟩
  · intro i player hp hd hlow
    have hf := (firstNotDone_eq_some gs.Players i).mpr ⟨⟨player, hp, hd⟩, hlow⟩
    rcases inv.turns.turn with ht | ⟨hn, _⟩
    · rw [hf] at ht; exact (Option.some.inj ht).symm
    · rw [hf] at hn; exact absurd hn (by simp)
  · rintro ⟨player, hmem, hd⟩
    rcases inv.turns.turn with ht | ⟨hn, _⟩
    · exact (firstNotDone_eq_some gs.Players gs.Turn).mp ht
    · have := (firstNotDone_eq_none gs.Players).mp hn player hmem
      rw [hd] at this; exact absurd this (by simp)
  · constructor
    · intro h3
      rcases inv.turns.turn with ht | ⟨hn, _⟩
      · obtain ⟨⟨player, hp, _⟩, _⟩ := (firstNotDone_eq_some gs.Players gs.Turn).mp ht
        have := (List.getElem?_eq_some_iff.mp hp).1
        omega
      · exact (firstNotDone_eq_none gs.Players).mp hn
    · intro hall
      rcases inv.turns.turn with ht | ⟨_, h3⟩
      · rw [(firstNotDone_eq_none gs.Players).mpr hall] at ht
        exact absurd ht (by simp)
      · exact h3

/-- C5 at the game of room "r1" right after its start: the turn is not 3, since
not every player is done. -/
theorem turn_is_first_player_not_done_witness :
    Reachable startedRegistry ∧
    startedRegistry "r1" = some (startGame zeroEntropy "r1").2 ∧
    ((startGame zeroEntropy "r1").2.Turn = 3 ↔
      ∀ player ∈ (startGame zeroEntropy "r1").2.Players, player.Done = true) :=
  ⟨startedRegistry_reachable, startedRegistry_r1,
   (turn_is_first_player_not_done startedRegistry startedRegistry_reachable "r1" _
      startedRegistry_r1).2.2.2⟩

/-! ## The last action of a game -/

theorem appendCard_frame (gs : GameState) (hand : HandRef) (c : Card) :
    (appendCard gs hand c).Players.length = gs.Players.length ∧
    (appendCard gs hand c).Results = gs.Results ∧
    (appendCard gs hand c).Status = gs.Status ∧
    (appendCard gs hand c).Turn = gs.Turn := by
  cases hand with
  | dealer => exact ⟨rfl, rfl, rfl, rfl⟩
  | player p =>
    simp only [appendCard]
    split
    · exact ⟨by simp, rfl, rfl, rfl⟩
    · exact ⟨rfl, rfl, rfl, rfl⟩

theorem dealCard_frame (e : Entropy) (gs : GameState) (hand : HandRef) :
    (dealCard e gs hand).2.Players.length = gs.Players.length ∧
    (dealCard e gs hand).2.Results = gs.Results ∧
    (dealCard e gs hand).2.Status = gs.Status ∧
    (dealCard e gs hand).2.Turn = gs.Turn := by
  obtain ⟨c, rest, _, heq⟩ := dealCard_eq e gs hand
  rw [heq]
  exact appendCard_frame _ _ _

theorem markBusted_frame (gs : GameState) (p : Nat) :
    (markBusted gs p).Players.length = gs.Players.length ∧
    (markBusted gs p).Results = gs.Results ∧
    (markBusted gs p).Status = gs.Status ∧
    (markBusted gs p).Turn = gs.Turn := by
  unfold markBusted
  split
  · split
    · exact ⟨by simp, rfl, rfl, rfl⟩
    · exact ⟨rfl, rfl, rfl, rfl⟩
  · exact ⟨rfl, rfl, rfl, rfl⟩

theorem markDone_frame (gs : GameState) (p : Nat) :
    (markDone gs p).Players.length = gs.Players.length ∧
    (markDone gs p).Results = gs.Results ∧
    (markDone gs p).Status = gs.Status ∧
    (markDone gs p).Turn = gs.Turn := by
  unfold markDone
  split
  · exact ⟨by simp, rfl, rfl, rfl⟩
  · exact ⟨rfl, rfl, rfl, rfl⟩

theorem afterMove_frame (e : Entropy) (gs : GameState) (req : ActionRequest) :
    (afterMove e gs req).2.Players.length = gs.Players.length ∧
    (afterMove e gs req).2.Results = gs.Results ∧
    (afterMove e gs req).2.Status = gs.Status ∧
    (afterMove e gs req).2.Turn = gs.Turn := by
  unfold afterMove
  by_cases ha : req.Action = "hit"
  · rw [if_pos ha]
    obtain ⟨a1, a2, a3, a4⟩ := markBusted_frame (dealCard e gs (.player req.Player.toNat)).2
      req.Player.toNat
    obtain ⟨b1, b2, b3, b4⟩ := dealCard_frame e gs (.player req.Player.toNat)
    exact ⟨a1.trans b1, a2.trans b2, a3.trans b3, a4.trans b4⟩
  · rw [if_neg ha]
    exact markDone_frame gs _

theorem resultLabel_mem (dVal : Int) (player : Hand) :
    resultLabel dVal player = "Win" ∨ resultLabel dVal player = "Lose" ∨
    resultLabel dVal player = "Bust" ∨ resultLabel dVal player = "Push" := by
  unfold resultLabel
  simp only
  split_ifs <;> simp

/-- The two outcomes of `advanceTurn` on a game with three players and three results:
the turn moves to the first player not done and nothing else changes, or nobody is left,
the dealer plays and the game is scored. -/
theorem advanceTurn_cases (e : Entropy) (gs : GameState)
    (hshape : gs.Players.length = 3 ∧ gs.Results.length = 3) :
    (∃ i, firstNotDone gs.Players = some i ∧ advanceTurn e gs = some (e, { gs with Turn := i })) ∨
    (firstNotDone gs.Players = none ∧
      advanceTurn e gs = some ((dealerLoop e gs).1,
        { (dealerLoop e gs).2 with
          Status := "finished"
          Results := gs.Players.map (resultLabel (handValue (dealerLoop e gs).2.Dealer).1)
          Turn := 3 })) := by
  unfold advanceTurn
  match hf : firstNotDone gs.Players with
  | some i => exact Or.inl ⟨i, rfl, rfl⟩
  | none =>
    refine Or.inr ⟨rfl, ?_⟩
    obtain ⟨_, hpl, hres, _, _⟩ := dealerLoop_spec e gs
    have hr : ({ (dealerLoop e gs).2 with Status := "finished" } : GameState).Players.length
        ≤ ({ (dealerLoop e gs).2 with Status := "finished" } : GameState).Results.length := by
      simp [hpl, hres, hshape.1, hshape.2]
    have hdrop : List.drop gs.Players.length gs.Results = [] := by
      rw [List.drop_eq_nil_iff]; omega
    simp only []
    rw [gameResult_eq _ hr]
    simp only [hpl, hres, hdrop, List.append_nil]

/-- C6.  When an accepted action on a game (three players, three results) leaves all
three players done, the state that same action produces has a dealer total of at least
17, status "finished", turn 3, and each of the three results is one of "Win", "Lose",
"Bust", "Push". -/
theorem last_action_finishes_game (e : Entropy) (games : Registry) (path : String)
    (body : Option ActionRequest) (out : Entropy × Registry × Response)
    (roomid : String) (gs after : GameState) (view : GameView)
    (hseg : (splitPath path)[3]? = some roomid)
    (hg : games roomid = some gs)
    (hshape : gs.Players.length = 3 ∧ gs.Results.length = 3)
    (hact : handleAction e games path body = some out)
    (hjson : out.2.2 = .json view)
    (hafter : out.2.1 roomid = some after)
    (hdone : ∀ player ∈ after.Players, player.Done = true) :
    17 ≤ (handValue after.Dealer).1 ∧ after.Status = "finished" ∧ after.Turn = 3 ∧
    after.Results.length = 3 ∧
    (∀ r ∈ after.Results, r = "Win" ∨ r = "Lose" ∨ r = "Bust" ∨ r = "Push") ∧
    view = encode after := by
  rcases handleAction_cases e games path body out hact with
    ⟨msg, hout, _⟩ | ⟨roomid2, req, gs2, after2, hseg2, _, _, hg2, hadv, hreg, hresp⟩
  · rw [hout] at hjson; exact absurd hjson (by simp)
  · have hroom : roomid2 = roomid := Option.some.inj (hseg2.symm.trans hseg)
    subst hroom
    have hgs : gs2 = gs := Option.some.inj (hg2.symm.trans hg)
    subst hgs
    rw [hreg, Function.update_same] at hafter
    have hafter2 : after2 = after := Option.some.inj hafter
    subst hafter2
    have hview : view = encode after2 := by
      rw [hresp] at hjson; exact (Response.json.inj hjson).symm
    obtain ⟨f1, f2, _, _⟩ := afterMove_frame e gs2 req
    have hshape2 : (afterMove e gs2 req).2.Players.length = 3 ∧
        (afterMove e gs2 req).2.Results.length = 3 := ⟨f1.trans hshape.1, by rw [f2]; exact hshape.2⟩
    rcases advanceTurn_cases (afterMove e gs2 req).1 (afterMove e gs2 req).2 hshape2 with
      ⟨i, hf, heq⟩ | ⟨_, heq⟩
    · rw [heq] at hadv
      have h2 := (Prod.mk.inj (Option.some.inj hadv)).2
      subst h2
      have hall := (firstNotDone_eq_none _).mpr hdone
      simp only at hall
      rw [hf] at hall
      exact absurd hall (by simp)
    · rw [heq] at hadv
      have h2 := (Prod.mk.inj (Option.some.inj hadv)).2
      subst h2
      obtain ⟨h17, _⟩ := dealerLoop_spec (afterMove e gs2 req).1 (afterMove e gs2 req).2
      refine ⟨h17, rfl, rfl, by simp [hshape2.1], ?_, hview⟩
      intro r hr
      simp only [List.mem_map] at hr
      obtain ⟨player, _, rfl⟩ := hr
      exact resultLabel_mem _ _
theorem splitPath_action_r1 :
    splitPath "/game/action/r1" = ["", "game", "action", "r1"] := by decide

theorem splitPath_action_r1_room : (splitPath "/game/action/r1")[3]? = some "r1" := by
  rw [splitPath_action_r1]; rfl

theorem oneRoom_r1 (gs : GameState) : oneRoom gs "r1" = some gs := by simp [oneRoom]

theorem dealerLoop_of_ge (e : Entropy) (gs : GameState) (h : ¬ (handValue gs.Dealer).1 < 17) :
    dealerLoop e gs = (e, gs) := by
  rw [dealerLoop, if_neg h]

/-- The stand of player 2 in `lastMoveGame`, evaluated. -/
theorem lastMove_stand :
    handleAction zeroEntropy (oneRoom lastMoveGame) "/game/action/r1" (some ⟨2, "stand"⟩) =
      some (zeroEntropy, Function.update (oneRoom lastMoveGame) "r1" (some finishedGame),
        .json (encode finishedGame)) := by
  rw [handleAction_accept zeroEntropy (oneRoom lastMoveGame) "/game/action/r1" "r1"
    ⟨2, "stand"⟩ lastMoveGame { Cards := [⟨"D", "8"⟩, ⟨"C", "8"⟩], Done := false, Busted := false }
    splitPath_action_r1_room (oneRoom_r1 _) rfl (by decide) (by decide) rfl rfl (Or.inr rfl)]
  have hm : afterMove zeroEntropy lastMoveGame ⟨2, "stand"⟩
      = (zeroEntropy, markDone lastMoveGame 2) := by
    simp [afterMove]
  rw [hm]
  have hadv : advanceTurn zeroEntropy (markDone lastMoveGame 2)
      = some (zeroEntropy, finishedGame) := by
    unfold advanceTurn
    have hf : firstNotDone (markDone lastMoveGame 2).Players = none := by decide
    have hl : dealerLoop zeroEntropy (markDone lastMoveGame 2)
        = (zeroEntropy, markDone lastMoveGame 2) := dealerLoop_of_ge _ _ (by decide)
    have hg : gameResult { markDone lastMoveGame 2 with Status := "finished" }
        = some { finishedGame with Turn := 2 } := by decide
    simp only [hf, hl, hg]
    rfl
  rw [hadv]
  rfl

/-- C6 at the stand of player 2 in `lastMoveGame`: the game ends with the dealer on 17. -/
theorem last_action_finishes_game_witness :
    (splitPath "/game/action/r1")[3]? = some "r1" ∧
    oneRoom lastMoveGame "r1" = some lastMoveGame ∧
    (∀ player ∈ finishedGame.Players, player.Done = true) ∧
    17 ≤ (handValue finishedGame.Dealer).1 ∧ finishedGame.Status = "finished" ∧
    finishedGame.Turn = 3 :=
  have h := last_action_finishes_game zeroEntropy (oneRoom lastMoveGame) "/game/action/r1"
    (some ⟨2, "stand"⟩) _ "r1" lastMoveGame finishedGame (encode finishedGame)
    splitPath_action_r1_room (oneRoom_r1 _) ⟨rfl, rfl⟩ lastMove_stand rfl
    (by simp [Function.update_same]) (by decide)
  ⟨splitPath_action_r1_room, oneRoom_r1 _, by decide, h.1, h.2.1, h.2.2.1⟩

/-! ## Acceptance and rejection of actions -/

theorem advanceTurn_some (e : Entropy) (gs : GameState)
    (hshape : gs.Players.length = 3 ∧ gs.Results.length = 3) :
    ∃ e2 after, advanceTurn e gs = some (e2, after) ∧ after.Players = gs.Players ∧
      after.Results.length = 3 := by
  rcases advanceTurn_cases e gs hshape with ⟨i, _, heq⟩ | ⟨_, heq⟩
  · exact ⟨_, _, heq, rfl, hshape.2⟩
  · refine ⟨_, _, heq, (dealerLoop_spec e gs).2.1, ?_⟩
    simp [hshape.1]

theorem acceptable_turn_irrelevant (games : Registry) (roomid : String) (req : ActionRequest)
    (gs : GameState) (t : Nat) (hg : games roomid = some gs) :
    Acceptable (Function.update games roomid (some { gs with Turn := t })) roomid req ↔
      Acceptable games roomid req := by
  unfold Acceptable
  rw [Function.update_same]
  constructor
  · rintro ⟨gs2, player, h1, h2, h3, h4, h5, h6, h7⟩
    have := Option.some.inj h1
    subst this
    exact ⟨gs, player, hg, h2, h3, h4, h5, h6, h7⟩
  · rintro ⟨gs2, player, h1, h2, h3, h4, h5, h6, h7⟩
    have := Option.some.inj (hg.symm.trans h1)
    subst this
    exact ⟨_, player, rfl, h2, h3, h4, h5, h6, h7⟩

/-- C8.  A request with a well-formed body for the room `roomid` (whose game, if any, has
its three players and three results) is accepted, that is answered with the JSON of the
game, if and only if the game exists, its status is "playing", the player index is 0, 1
or 2, that player is not done, and the action is "hit" or "stand".  When accepted it is
applied: the registry holds the game produced by the move and the turn advance, and the
response encodes it.  In every other case the response is an error.  The conditions do
not mention `Turn`: changing the turn of the stored game changes nothing to acceptance. -/
theorem action_accepted_iff_preconditions (e : Entropy) (games : Registry)
    (path roomid : String) (req : ActionRequest)
    (hseg : (splitPath path)[3]? = some roomid)
    (hshape : ∀ gs, games roomid = some gs → gs.Players.length = 3 ∧ gs.Results.length = 3) :
    ((∃ out view, handleAction e games path (some req) = some out ∧ out.2.2 = .json view) ↔
      (∃ gs player, games roomid = some gs ∧ gs.Status = "playing" ∧
        0 ≤ req.Player ∧ req.Player ≤ 2 ∧
        gs.Players[req.Player.toNat]? = some player ∧ player.Done = false ∧
        (req.Action = "hit" ∨ req.Action = "stand"))) ∧
    (Acceptable games roomid req →
      ∃ gs e2 after, games roomid = some gs ∧
        advanceTurn (afterMove e gs req).1 (afterMove e gs req).2 = some (e2, after) ∧
        handleAction e games path (some req) =
          some (e2, Function.update games roomid (some after), .json (encode after))) ∧
    (¬ Acceptable games roomid req →
      ∃ msg, handleAction e games path (some req) = some (e, games, .error 400 msg)) ∧
    (∀ gs t, games roomid = some gs →
      (Acceptable (Function.update games roomid (some { gs with Turn := t })) roomid req ↔
        Acceptable games roomid req)) := by
  have happly : Acceptable games roomid req →
      ∃ gs e2 after, games roomid = some gs ∧
        advanceTurn (afterMove e gs req).1 (afterMove e gs req).2 = some (e2, after) ∧
        handleAction e games path (some req) =
          some (e2, Function.update games roomid (some after), .json (encode after)) := by
    rintro ⟨gs, player, hg, hplay, h0, h2, hp, hd, ha⟩
    obtain ⟨f1, f2, _, _⟩ := afterMove_frame e gs req
    obtain ⟨s1, s2⟩ := hshape gs hg
    obtain ⟨e2, after, hadv, _, _⟩ := advanceTurn_some (afterMove e gs req).1
      (afterMove e gs req).2 ⟨f1.trans s1, by rw [f2]; exact s2⟩
    refine ⟨gs, e2, after, hg, hadv, ?_⟩
    rw [handleAction_accept e games path roomid req gs player hseg hg hplay h0 h2 hp hd ha,
      hadv]
    rfl
  refine ⟨⟨?_, ?_⟩, happly, ?_, fun gs t hg => acceptable_turn_irrelevant games roomid req gs t hg⟩
  · rintro ⟨out, view, hact, hjson⟩
    rcases handleAction_cases e games path (some req) out hact with
      ⟨msg, hout, _⟩ | ⟨roomid2, req2, gs2, after2, hseg2, hbody, hacc, _⟩
    · rw [hout] at hjson; exact absurd hjson (by simp)
    · have hroom : roomid2 = roomid := Option.some.inj (hseg2.symm.trans hseg)
      have hreq : req = req2 := Option.some.inj hbody
      subst hroom hreq
      exact hacc
  · intro hacc
    obtain ⟨gs, e2, after, _, _, hact⟩ := happly hacc
    exact ⟨_, encode after, hact, rfl⟩
  · intro hno
    have hno2 : ∀ roomid2 req2, (splitPath path)[3]? = some roomid2 → some req = some req2 →
        ¬ Acceptable games roomid2 req2 := by
      intro roomid2 req2 hseg2 hbody
      have hroom : roomid2 = roomid := Option.some.inj (hseg2.symm.trans hseg)
      have hreq : req = req2 := Option.some.inj hbody
      subst hroom hreq
      exact hno
    rcases handleAction_reject e games path (some req) hno2 with
      hmsg | ⟨_, roomid2, gs2, _, hseg2, hg2, _, _, _, hlt⟩
    · exact hmsg
    · have hroom : roomid2 = roomid := Option.some.inj (hseg2.symm.trans hseg)
      subst hroom
      have := (hshape gs2 hg2).1
      omega

/-- C8 at `lastMoveGame`, whose turn is 2: the stand of player 2 is accepted, and it
would equally be accepted if the turn of the stored game pointed to player 0. -/
theorem action_accepted_iff_preconditions_witness :
    (splitPath "/game/action/r1")[3]? = some "r1" ∧
    (∃ out view, handleAction zeroEntropy (oneRoom lastMoveGame) "/game/action/r1"
        (some ⟨2, "stand"⟩) = some out ∧ out.2.2 = .json view) ∧
    Acceptable (Function.update (oneRoom lastMoveGame) "r1"
      (some { lastMoveGame with Turn := 0 })) "r1" ⟨2, "stand"⟩ :=
  have hshape : ∀ gs, oneRoom lastMoveGame "r1" = some gs →
      gs.Players.length = 3 ∧ gs.Results.length = 3 := fun gs hg =>
    (Option.some.inj ((oneRoom_r1 lastMoveGame).symm.trans hg)) ▸ ⟨rfl, rfl⟩
  have hacc : Acceptable (oneRoom lastMoveGame) "r1" ⟨2, "stand"⟩ :=
    ⟨lastMoveGame, _, oneRoom_r1 _, rfl, by decide, by decide, rfl, rfl, Or.inr rfl⟩
  have h := action_accepted_iff_preconditions zeroEntropy (oneRoom lastMoveGame)
    "/game/action/r1" "r1" ⟨2, "stand"⟩ splitPath_action_r1_room hshape
  ⟨splitPath_action_r1_room, h.1.mpr hacc, (h.2.2.2 lastMoveGame 0 (oneRoom_r1 _)).mpr hacc⟩

/-! ## Rejected requests -/

/-- A request for the room `roomid` that is not acceptable is answered with an error and
changes nothing, unless indexing the players panics. -/
theorem handleAction_reject_room (e : Entropy) (games : Registry) (path roomid : String)
    (body : Option ActionRequest) (hseg : (splitPath path)[3]? = some roomid)
    (hno : ∀ req, body = some req → ¬ Acceptable games roomid req)
    (hidx : ∀ gs req, games roomid = some gs → body = some req →
      gs.Players[req.Player.toNat]? = none → gs.Status = "playing" → False) :
    ∃ msg, handleAction e games path body = some (e, games, .error 400 msg) := by
  have hno2 : ∀ roomid2 req, (splitPath path)[3]? = some roomid2 → body = some req →
      ¬ Acceptable games roomid2 req := by
    intro roomid2 req hseg2 hbody
    have hroom : roomid2 = roomid := Option.some.inj (hseg2.symm.trans hseg)
    subst hroom
    exact hno req hbody
  rcases handleAction_reject e games path body hno2 with
    hmsg | ⟨_, roomid2, gs2, req2, hseg2, hg2, hplay, hbody, hnone, _⟩
  · exact hmsg
  · have hroom : roomid2 = roomid := Option.some.inj (hseg2.symm.trans hseg)
    subst hroom
    exact absurd (hidx gs2 req2 hg2 hbody hnone hplay) id

theorem markDone_player (gs : GameState) (p : Nat) (player : Hand)
    (hp : gs.Players[p]? = some player) :
    (markDone gs p).Players[p]? = some { player with Done := true } := by
  have hlt := (List.getElem?_eq_some_iff.mp hp).1
  simp only [markDone, hp]
  exact List.getElem?_set_self hlt

theorem handleAction_out_of_range (e : Entropy) (games : Registry) (path : String)
    (req : ActionRequest) (hrange : req.Player < 0 ∨ 2 < req.Player) :
    ∃ msg, handleAction e games path (some req) = some (e, games, .error 400 msg) := by
  unfold handleAction
  by_cases hlen : (splitPath path).length < 4
  · exact ⟨"Missing gameroomid", by simp [hlen]⟩
  · simp only [hlen, if_false]
    cases hg : games ((splitPath path).getD 3 "") with
    | none => exact ⟨_, rfl⟩
    | some gs =>
      simp only
      by_cases hplay : gs.Status = "playing"
      · have hr : req.Player < 0 ∨ req.Player > 2 := hrange
        exact ⟨"Invalid player", by simp [hplay, hr]⟩
      · exact ⟨"Game not found or not in playing state", by simp [hplay]⟩

/-- C9.  A request that `handleAction` answers with an error leaves the registry (and
the entropy stream) exactly as before, so no game is created for a room that had none.
Each of the rejection cases is such a request: the room is unknown; the game is not
playing; the body is malformed; the player index is out of range (for instance 5); the
player is already done; the action is neither "hit" nor "stand".  In particular, after
an accepted stand of a player, a second stand of the same player is rejected and
changes nothing. -/
theorem rejected_request_changes_nothing (e : Entropy) (games : Registry) (path : String)
    (body : Option ActionRequest) :
    (∀ out code msg, handleAction e games path body = some out → out.2.2 = .error code msg →
      out.1 = e ∧ out.2.1 = games ∧ ∀ roomid, games roomid = none → out.2.1 roomid = none) ∧
    (∀ roomid, (splitPath path)[3]? = some roomid → games roomid = none →
      ∃ msg, handleAction e games path body = some (e, games, .error 400 msg)) ∧
    (∀ roomid gs, (splitPath path)[3]? = some roomid → games roomid = some gs →
      gs.Status ≠ "playing" →
      ∃ msg, handleAction e games path body = some (e, games, .error 400 msg)) ∧
    (∀ roomid, (splitPath path)[3]? = some roomid → body = none →
      ∃ msg, handleAction e games path body = some (e, games, .error 400 msg)) ∧
    (∀ roomid req, (splitPath path)[3]? = some roomid → body = some req →
      (req.Player < 0 ∨ 2 < req.Player) →
      ∃ msg, handleAction e games path body = some (e, games, .error 400 msg)) ∧
    (∀ roomid gs req player, (splitPath path)[3]? = some roomid → games roomid = some gs →
      body = some req → gs.Players[req.Player.toNat]? = some player → player.Done = true →
      ∃ msg, handleAction e games path body = some (e, games, .error 400 msg)) ∧
    (∀ roomid gs req, (splitPath path)[3]? = some roomid → games roomid = some gs →
      gs.Players.length = 3 → body = some req → req.Action ≠ "hit" → req.Action ≠ "stand" →
      ∃ msg, handleAction e games path body = some (e, games, .error 400 msg)) ∧
    (∀ roomid gs p out view, (splitPath path)[3]? = some roomid → games roomid = some gs →
      gs.Players.length = 3 ∧ gs.Results.length = 3 → body = some ⟨p, "stand"⟩ →
      handleAction e games path body = some out → out.2.2 = .json view →
      ∀ e2, ∃ msg, handleAction e2 out.2.1 path body = some (e2, out.2.1, .error 400 msg)) := by
  refine ⟨?_, ?_, ?_, ?_, ?_, ?_, ?_, ?_⟩
  · intro out code msg hact herr
    rcases handleAction_cases e games path body out hact with
      ⟨m, hout, _⟩ | ⟨_, _, _, _, _, _, _, _, _, _, hresp⟩
    · subst hout
      exact ⟨rfl, rfl, fun _ h => h⟩
    · rw [hresp] at herr; exact absurd herr (by simp)
  · intro roomid hseg hnone
    refine handleAction_reject_room e games path roomid body hseg ?_ ?_
    · rintro req _ ⟨gs, _, hg, _⟩
      rw [hnone] at hg; exact absurd hg (by simp)
    · intro gs req hg
      rw [hnone] at hg; exact absurd hg (by simp)
  · intro roomid gs hseg hg hstat
    refine handleAction_reject_room e games path roomid body hseg ?_ ?_
    · rintro req _ ⟨gs2, _, hg2, hplay, _⟩
      have := Option.some.inj (hg.symm.trans hg2)
      subst this
      exact hstat hplay
    · intro gs2 req hg2 _ _ hplay
      have := Option.some.inj (hg.symm.trans hg2)
      subst this
      exact hstat hplay
  · intro roomid hseg hbody
    refine handleAction_reject_room e games path roomid body hseg ?_ ?_
    · intro req hreq
      rw [hbody] at hreq; exact absurd hreq (by simp)
    · intro gs req _ hreq
      rw [hbody] at hreq; exact absurd hreq (by simp)
  · intro roomid req _ hbody hrange
    rw [hbody]
    exact handleAction_out_of_range e games path req hrange
  · intro roomid gs req player hseg hg hbody hp hdone
    refine handleAction_reject_room e games path roomid body hseg ?_ ?_
    · rintro req2 hbody2 ⟨gs2, player2, hg2, _, _, _, hp2, hd2, _⟩
      have h1 := Option.some.inj (hg.symm.trans hg2)
      have h2 := Option.some.inj (hbody.symm.trans hbody2)
      subst h1 h2
      have h3 := Option.some.inj (hp.symm.trans hp2)
      subst h3
      rw [hdone] at hd2; exact absurd hd2 (by simp)
    · intro gs2 req2 hg2 hbody2 hnone _
      have h1 := Option.some.inj (hg.symm.trans hg2)
      have h2 := Option.some.inj (hbody.symm.trans hbody2)
      subst h1 h2
      rw [hp] at hnone; exact absurd hnone (by simp)
  · intro roomid gs req hseg hg hlen hbody hhit hstand
    by_cases hrange : req.Player < 0 ∨ 2 < req.Player
    · rw [hbody]
      exact handleAction_out_of_range e games path req hrange
    · refine handleAction_reject_room e games path roomid body hseg ?_ ?_
      · rintro req2 hbody2 ⟨_, _, _, _, _, _, _, _, ha⟩
        have := Option.some.inj (hbody.symm.trans hbody2)
        subst this
        rcases ha with ha | ha
        · exact hhit ha
        · exact hstand ha
      · intro gs2 req2 hg2 hbody2 hnone _
        have h1 := Option.some.inj (hg.symm.trans hg2)
        have h2 := Option.some.inj (hbody.symm.trans hbody2)
        subst h1 h2
        have := List.getElem?_eq_none_iff.mp hnone
        omega
  · intro roomid gs p out view hseg hg hshape hbody hact hjson e2
    rcases handleAction_cases e games path body out hact with
      ⟨m, hout, _⟩ | ⟨roomid2, req, gs2, after, hseg2, hbody2, hacc, hg2, hadv, hreg, _⟩
    · rw [hout] at hjson; exact absurd hjson (by simp)
    · have hroom : roomid2 = roomid := Option.some.inj (hseg2.symm.trans hseg)
      subst hroom
      have hreq : (⟨p, "stand"⟩ : ActionRequest) = req := Option.some.inj (hbody.symm.trans hbody2)
      subst hreq
      have hgs : gs2 = gs := Option.some.inj (hg2.symm.trans hg)
      subst hgs
      obtain ⟨gs3, player, hg3, _, _, _, hp, _, _⟩ := hacc
      have hgs : gs2 = gs3 := Option.some.inj (hg2.symm.trans hg3)
      subst hgs
      have hm : afterMove e gs2 ⟨p, "stand"⟩ = (e, markDone gs2 p.toNat) := by
        simp [afterMove]
      rw [hm] at hadv
      obtain ⟨m1, m2, _, _⟩ := markDone_frame gs2 p.toNat
      obtain ⟨e3, after3, hadv3, hpl, _⟩ := advanceTurn_some e (markDone gs2 p.toNat)
        ⟨m1.trans hshape.1, by rw [m2]; exact hshape.2⟩
      rw [hadv] at hadv3
      have hafter : after = after3 := (Prod.mk.inj (Option.some.inj hadv3)).2
      subst hafter
      have hpd : after.Players[p.toNat]? = some { player with Done := true } := by
        rw [hpl]; exact markDone_player gs2 p.toNat player hp
      have hroomgame : out.2.1 roomid2 = some after := by
        rw [hreg, Function.update_same]
      refine handleAction_reject_room e2 out.2.1 path roomid2 body hseg ?_ ?_
      · rintro req2 hbody3 ⟨gs4, player4, hg4, _, _, _, hp4, hd4, _⟩
        have h1 := Option.some.inj (hroomgame.symm.trans hg4)
        have h2 := Option.some.inj (hbody.symm.trans hbody3)
        subst h1 h2
        rw [hpd] at hp4
        have h3 := Option.some.inj hp4
        subst h3
        simp at hd4
      · intro gs4 req2 hg4 hbody3 hnone _
        have h1 := Option.some.inj (hroomgame.symm.trans hg4)
        have h2 := Option.some.inj (hbody.symm.trans hbody3)
        subst h1 h2
        rw [hpd] at hnone; exact absurd hnone (by simp)

/-- C9 at `lastMoveGame`, where player 0 has already stood: a further stand of player 0
is answered with an error and the registry is the same. -/
theorem rejected_request_changes_nothing_witness :
    ∃ msg, handleAction zeroEntropy (oneRoom lastMoveGame) "/game/action/r1"
        (some ⟨0, "stand"⟩) = some (zeroEntropy, oneRoom lastMoveGame, .error 400 msg) :=
  (rejected_request_changes_nothing zeroEntropy (oneRoom lastMoveGame) "/game/action/r1"
    (some ⟨0, "stand"⟩)).2.2.2.2.2.1 "r1" lastMoveGame ⟨0, "stand"⟩ _
    splitPath_action_r1_room (oneRoom_r1 _) rfl rfl rfl

/-! ## The status of a game -/

theorem shaped_update (games : Registry) (roomid : String) (gs : GameState)
    (h : Shaped games) (hgs : gs.Players.length = 3 ∧ gs.Results.length = 3) :
    Shaped (Function.update games roomid (some gs)) := by
  intro r g hg
  by_cases hr : r = roomid
  · subst hr
    rw [Function.update_same] at hg
    exact (Option.some.inj hg) ▸ hgs
  · rw [Function.update_noteq hr] at hg
    exact h r g hg

/-- In a registry whose games have three players and three results, `handleAction` does
not panic, and it leaves such a registry. -/
theorem handleAction_shaped (e : Entropy) (games : Registry) (path : String)
    (body : Option ActionRequest) (h : Shaped games) :
    ∃ out, handleAction e games path body = some out ∧ Shaped out.2.1 := by
  by_cases hacc : ∃ roomid req, (splitPath path)[3]? = some roomid ∧ body = some req ∧
      Acceptable games roomid req
  · obtain ⟨roomid, req, hseg, hbody, gs, player, hg, hplay, h0, h2, hp, hd, ha⟩ := hacc
    subst hbody
    rw [handleAction_accept e games path roomid req gs player hseg hg hplay h0 h2 hp hd ha]
    obtain ⟨f1, f2, _, _⟩ := afterMove_frame e gs req
    obtain ⟨s1, s2⟩ := h roomid gs hg
    obtain ⟨e2, after, hadv, hpl, hres⟩ := advanceTurn_some (afterMove e gs req).1
      (afterMove e gs req).2 ⟨f1.trans s1, by rw [f2]; exact s2⟩
    rw [hadv]
    exact ⟨_, rfl, shaped_update games roomid after h ⟨by rw [hpl]; exact f1.trans s1, hres⟩⟩
  · have hno : ∀ roomid req, (splitPath path)[3]? = some roomid → body = some req →
        ¬ Acceptable games roomid req := fun roomid req hs hb hA => hacc ⟨roomid, req, hs, hb, hA⟩
    rcases handleAction_reject e games path body hno with
      ⟨msg, hmsg⟩ | ⟨_, r, g, _, _, hg, _, _, _, hlt⟩
    · exact ⟨_, hmsg, h⟩
    · have := (h r g hg).1
      omega

/-- One action changes the status of a game at most from "playing" to "finished". -/
theorem handleAction_status (e : Entropy) (games : Registry) (path : String)
    (body : Option ActionRequest) (out : Entropy × Registry × Response)
    (roomid : String) (gs after : GameState) (h : Shaped games)
    (hg : games roomid = some gs) (hact : handleAction e games path body = some out)
    (hafter : out.2.1 roomid = some after) :
    after.Status = gs.Status ∨ (gs.Status = "playing" ∧ after.Status = "finished") := by
  rcases handleAction_cases e games path body out hact with
    ⟨msg, hout, _⟩ | ⟨roomid2, req, gs2, after2, _, _, hacc, hg2, hadv, hreg, _⟩
  · subst hout
    exact Or.inl (by rw [Option.some.inj (hg.symm.trans hafter)])
  · by_cases hr : roomid = roomid2
    · subst hr
      have hgs : gs2 = gs := Option.some.inj (hg2.symm.trans hg)
      subst hgs
      rw [hreg, Function.update_same] at hafter
      have := Option.some.inj hafter
      subst this
      obtain ⟨gs3, _, hg3, hplay, _⟩ := hacc
      have hgs : gs2 = gs3 := Option.some.inj (hg2.symm.trans hg3)
      subst hgs
      obtain ⟨f1, f2, f3, _⟩ := afterMove_frame e gs2 req
      obtain ⟨s1, s2⟩ := h roomid gs2 hg
      rcases advanceTurn_cases (afterMove e gs2 req).1 (afterMove e gs2 req).2
        ⟨f1.trans s1, by rw [f2]; exact s2⟩ with ⟨i, _, heq⟩ | ⟨_, heq⟩
      · rw [heq] at hadv
        have := (Prod.mk.inj (Option.some.inj hadv)).2
        subst this
        exact Or.inl f3
      · rw [heq] at hadv
        have := (Prod.mk.inj (Option.some.inj hadv)).2
        subst this
        exact Or.inr ⟨hplay, rfl⟩
    · rw [hreg, Function.update_noteq hr] at hafter
      exact Or.inl (by rw [Option.some.inj (hg.symm.trans hafter)])

/-- A finished game is left alone by every action. -/
theorem handleAction_finished (e : Entropy) (games : Registry) (path : String)
    (body : Option ActionRequest) (out : Entropy × Registry × Response)
    (roomid : String) (gs : GameState) (hg : games roomid = some gs)
    (hfin : gs.Status = "finished") (hact : handleAction e games path body = some out) :
    out.2.1 roomid = some gs := by
  rcases handleAction_cases e games path body out hact with
    ⟨msg, hout, _⟩ | ⟨roomid2, req, gs2, after2, _, _, hacc, _, _, hreg, _⟩
  · subst hout; exact hg
  · by_cases hr : roomid = roomid2
    · subst hr
      obtain ⟨gs3, _, hg3, hplay, _⟩ := hacc
      have hgs : gs = gs3 := Option.some.inj (hg.symm.trans hg3)
      subst hgs
      rw [hfin] at hplay
      exact absurd hplay (by decide)
    · rw [hreg, Function.update_noteq hr]
      exact hg

theorem runActions_finished (games : Registry)
    (reqs : List (Entropy × String × Option ActionRequest)) (final : Registry)
    (roomid : String) (gs : GameState) (hg : games roomid = some gs)
    (hfin : gs.Status = "finished") (hrun : runActions games reqs = some final) :
    final roomid = some gs := by
  induction reqs generalizing games with
  | nil =>
    simp only [runActions, Option.some.injEq] at hrun
    subst hrun; exact hg
  | cons r rest ih =>
    obtain ⟨e, path, body⟩ := r
    simp only [runActions] at hrun
    cases hact : handleAction e games path body with
    | none => rw [hact] at hrun; exact absurd hrun (by simp)
    | some out =>
      rw [hact] at hrun
      exact ih out.2.1 (handleAction_finished e games path body out roomid gs hg hfin hact) hrun

theorem runActions_shaped (games : Registry)
    (reqs : List (Entropy × String × Option ActionRequest)) (h : Shaped games) :
    ∃ final, runActions games reqs = some final := by
  induction reqs generalizing games with
  | nil => exact ⟨games, rfl⟩
  | cons r rest ih =>
    obtain ⟨e, path, body⟩ := r
    obtain ⟨out, hact, hsh⟩ := handleAction_shaped e games path body h
    simp only [runActions, hact]
    exact ih out.2.1 hsh

/-- C10.  Once the game of a room has status "finished", every later action on that
room is rejected with an error and changes nothing; whatever actions are handled, on
any room, the game of the room (hands, deck, results, turn, status) stays as it is, so
its status never goes back to "playing".  In general one action either keeps the status
of a game or moves it from "playing" to "finished", so that this move happens at most
once between two starts. -/
theorem finished_game_is_final (games : Registry) (roomid : String) (gs : GameState)
    (hg : games roomid = some gs) (hfin : gs.Status = "finished") :
    (∀ e path body, (splitPath path)[3]? = some roomid →
      ∃ msg, handleAction e games path body = some (e, games, .error 400 msg)) ∧
    (∀ e path body out, handleAction e games path body = some out →
      out.2.1 roomid = some gs) ∧
    (∀ reqs final, runActions games reqs = some final → final roomid = some gs) ∧
    (Shaped games → ∀ reqs, ∃ final, runActions games reqs = some final ∧
      final roomid = some gs) ∧
    (∀ (other : Registry) e path body out room before after, Shaped other →
      other room = some before → handleAction e other path body = some out →
      out.2.1 room = some after →
      after.Status = before.Status ∨
        (before.Status = "playing" ∧ after.Status = "finished")) := by
  refine ⟨?_, ?_, ?_, ?_, ?_⟩
  · intro e path body hseg
    refine handleAction_reject_room e games path roomid body hseg ?_ ?_
    · rintro req _ ⟨gs2, _, hg2, hplay, _⟩
      have := Option.some.inj (hg.symm.trans hg2)
      subst this
      rw [hfin] at hplay; exact absurd hplay (by decide)
    · intro gs2 req hg2 _ _ hplay
      have := Option.some.inj (hg.symm.trans hg2)
      subst this
      rw [hfin] at hplay; exact absurd hplay (by decide)
  · intro e path body out hact
    exact handleAction_finished e games path body out roomid gs hg hfin hact
  · intro reqs final hrun
    exact runActions_finished games reqs final roomid gs hg hfin hrun
  · intro hsh reqs
    obtain ⟨final, hrun⟩ := runActions_shaped games reqs hsh
    exact ⟨final, hrun, runActions_finished games reqs final roomid gs hg hfin hrun⟩
  · intro other e path body out room before after hsh hb hact ha
    exact handleAction_status e other path body out room before after hsh hb hact ha

/-- C10 at `finishedGame`: a hit of player 0 and a stand of player 2, handled one after
the other, leave the finished game as it is. -/
theorem finished_game_is_final_witness :
    oneRoom finishedGame "r1" = some finishedGame ∧ finishedGame.Status = "finished" ∧
    ∃ final, runActions (oneRoom finishedGame)
        [(zeroEntropy, "/game/action/r1", some ⟨0, "hit"⟩),
         (zeroEntropy, "/game/action/r1", some ⟨2, "stand"⟩)] = some final ∧
      final "r1" = some finishedGame :=
  ⟨oneRoom_r1 _, rfl,
   (finished_game_is_final (oneRoom finishedGame) "r1" finishedGame (oneRoom_r1 _) rfl).2.2.2.1
     (fun r g hg => by
       unfold oneRoom at hg
       split at hg
       · exact (Option.some.inj hg) ▸ ⟨rfl, rfl⟩
       · exact absurd hg (by simp)) _⟩

/-! ## The effect of one accepted action -/

/-- The move of an accepted request touches one entry of the players slice and leaves
the dealer alone. -/
theorem afterMove_players (e : Entropy) (gs : GameState) (req : ActionRequest) :
    (∃ hand, (afterMove e gs req).2.Players = gs.Players.set req.Player.toNat hand) ∧
    (afterMove e gs req).2.Dealer = gs.Dealer := by
  unfold afterMove
  by_cases ha : req.Action = "hit"
  · rw [if_pos ha]
    obtain ⟨c, rest, _, heq⟩ := dealCard_eq e gs (.player req.Player.toNat)
    rw [heq]
    cases hp : gs.Players[req.Player.toNat]? with
    | none =>
      have hle := List.getElem?_eq_none_iff.mp hp
      refine ⟨⟨default, ?_⟩, ?_⟩
      · simp [appendCard, markBusted, hp, List.set_eq_of_length_le hle]
      · simp [appendCard, markBusted, hp]
    | some h =>
      have hlt := (List.getElem?_eq_some_iff.mp hp).1
      by_cases hb : isBusted { Cards := h.Cards ++ [c], Done := h.Done, Busted := h.Busted } = true
      · refine ⟨⟨{ Cards := h.Cards ++ [c], Done := true, Busted := true }, ?_⟩, ?_⟩
        · simp [appendCard, markBusted, hp, List.getElem?_set_self hlt, hb, List.set_set]
        · simp [appendCard, markBusted, hp, List.getElem?_set_self hlt, hb]
      · refine ⟨⟨{ Cards := h.Cards ++ [c], Done := h.Done, Busted := h.Busted }, ?_⟩, ?_⟩
        · simp [appendCard, markBusted, hp, List.getElem?_set_self hlt, hb]
        · simp [appendCard, markBusted, hp, List.getElem?_set_self hlt, hb]
  · rw [if_neg ha]
    cases hp : gs.Players[req.Player.toNat]? with
    | none =>
      have hle := List.getElem?_eq_none_iff.mp hp
      refine ⟨⟨default, ?_⟩, ?_⟩
      · simp [markDone, hp, List.set_eq_of_length_le hle]
      · simp [markDone, hp]
    | some h =>
      refine ⟨⟨{ h with Done := true }, ?_⟩, ?_⟩
      · simp [markDone, hp]
      · simp [markDone, hp]

/-- What `advanceTurn` leaves of the players and of the dealer. -/
theorem advanceTurn_frame (e : Entropy) (gs : GameState) (e2 : Entropy) (after : GameState)
    (hshape : gs.Players.length = 3 ∧ gs.Results.length = 3)
    (hadv : advanceTurn e gs = some (e2, after)) :
    after.Players = gs.Players ∧
    ((∃ q ∈ after.Players, q.Done = false) →
      after.Dealer = gs.Dealer ∧ after.Deck = gs.Deck ∧ after.Results = gs.Results ∧
      after.Status = gs.Status ∧ e2 = e) := by
  rcases advanceTurn_cases e gs hshape with ⟨i, _, heq⟩ | ⟨hnone, heq⟩
  · rw [heq] at hadv
    obtain ⟨h1, h2⟩ := Prod.mk.inj (Option.some.inj hadv)
    subst h2
    exact ⟨rfl, fun _ => ⟨rfl, rfl, rfl, rfl, h1.symm⟩⟩
  · rw [heq] at hadv
    obtain ⟨_, h2⟩ := Prod.mk.inj (Option.some.inj hadv)
    subst h2
    have hpl := (dealerLoop_spec e gs).2.1
    refine ⟨hpl, ?_⟩
    rintro ⟨q, hq, hd⟩
    have hq2 : q ∈ gs.Players := by simpa [hpl] using hq
    have := (firstNotDone_eq_none gs.Players).mp hnone q hq2
    rw [hd] at this
    exact absurd this (by simp)

/-- C11.  An accepted "hit" of player `p` (a not-done, not-busted player of a playing
game with three players and three results) on a deck `c :: rest`: the handler returns,
the hit branch leaves the deck `rest` and appends `c` to the end of the hand of `p`,
and in the game the action leaves, the hand of `p` has both flags set if and only if
its total exceeds 21, and both flags false otherwise.  Unless the action ends the game
(no player left, the dealer then draws from `rest`), the deck it leaves is `rest`. -/
theorem accepted_hit_moves_first_card (e : Entropy) (games : Registry) (path roomid : String)
    (req : ActionRequest) (gs : GameState) (player : Hand) (c : Card) (rest : List Card)
    (hseg : (splitPath path)[3]? = some roomid) (hg : games roomid = some gs)
    (hshape : gs.Players.length = 3 ∧ gs.Results.length = 3)
    (hplay : gs.Status = "playing") (h0 : 0 ≤ req.Player) (h2 : req.Player ≤ 2)
    (hp : gs.Players[req.Player.toNat]? = some player) (hd : player.Done = false)
    (hb : player.Busted = false) (ha : req.Action = "hit") (hdeck : gs.Deck = c :: rest) :
    ∃ e2 after hand,
      handleAction e games path (some req) =
        some (e2, Function.update games roomid (some after), .json (encode after)) ∧
      (afterMove e gs req).1 = e ∧ (afterMove e gs req).2.Deck = rest ∧
      (afterMove e gs req).2.Players[req.Player.toNat]? = some hand ∧
      after.Players[req.Player.toNat]? = some hand ∧
      hand.Cards = player.Cards ++ [c] ∧
      ((hand.Busted = true ∧ hand.Done = true) ↔ 21 < (handValue hand).1) ∧
      (¬ 21 < (handValue hand).1 → hand.Busted = false ∧ hand.Done = false) ∧
      ((∃ q ∈ after.Players, q.Done = false) → after.Deck = rest ∧ e2 = e) := by
  obtain ⟨he, hs⟩ := hit_state e gs req.Player.toNat player c rest hp hd hb hdeck
  have hm : afterMove e gs req =
      (e, { gs with Deck := rest, Players := gs.Players.set req.Player.toNat (hitHand player c) }) := by
    unfold afterMove
    rw [if_pos ha, hs, he]
  have hlt := (List.getElem?_eq_some_iff.mp hp).1
  have hshape2 : (afterMove e gs req).2.Players.length = 3 ∧
      (afterMove e gs req).2.Results.length = 3 := by
    rw [hm]; exact ⟨by simp [hshape.1], hshape.2⟩
  obtain ⟨e2, after, hadv, hpl, _⟩ := advanceTurn_some (afterMove e gs req).1
    (afterMove e gs req).2 hshape2
  obtain ⟨_, hrest⟩ := advanceTurn_frame _ _ e2 after hshape2 hadv
  have hv : handValue (hitHand player c)
      = handValue { Cards := player.Cards ++ [c], Done := false, Busted := false } :=
    handValue_congr _ _ rfl
  refine ⟨e2, after, hitHand player c, ?_, ?_, ?_, ?_, ?_, rfl, ?_, ?_, ?_⟩
  · rw [handleAction_accept e games path roomid req gs player hseg hg hplay h0 h2 hp hd
      (Or.inl ha), hadv]
    rfl
  · rw [hm]
  · rw [hm]
  · rw [hm]; exact List.getElem?_set_self hlt
  · rw [hpl, hm]; exact List.getElem?_set_self hlt
  · rw [hv]; simp [hitHand, isBusted]
  · rw [hv]; simp [hitHand, isBusted]
  · intro hq
    obtain ⟨_, hdk, _, _, he2⟩ := hrest hq
    rw [hm] at hdk he2
    exact ⟨hdk, he2⟩

/-- C12.  An accepted action of player `p` on a game with three players and three
results leaves every other player as before (cards and both flags), and leaves the
dealer's hand as before unless all three players are done after it. -/
theorem accepted_action_spares_other_hands (e : Entropy) (games : Registry)
    (path roomid : String) (body : Option ActionRequest)
    (out : Entropy × Registry × Response) (req : ActionRequest) (gs after : GameState)
    (view : GameView)
    (hseg : (splitPath path)[3]? = some roomid) (hg : games roomid = some gs)
    (hshape : gs.Players.length = 3 ∧ gs.Results.length = 3)
    (hbody : body = some req)
    (hact : handleAction e games path body = some out)
    (hjson : out.2.2 = .json view)
    (hafter : out.2.1 roomid = some after) :
    (∀ q : Nat, q ≠ req.Player.toNat → after.Players[q]? = gs.Players[q]?) ∧
    ((∃ player ∈ after.Players, player.Done = false) → after.Dealer = gs.Dealer) ∧
    (∀ other : String, other ≠ roomid → out.2.1 other = games other) := by
  rcases handleAction_cases e games path body out hact with
    ⟨msg, hout, _⟩ | ⟨roomid2, req2, gs2, after2, hseg2, hbody2, _, hg2, hadv, hreg, _⟩
  · rw [hout] at hjson; exact absurd hjson (by simp)
  · have hroom : roomid2 = roomid := Option.some.inj (hseg2.symm.trans hseg)
    subst hroom
    have hreq : req = req2 := Option.some.inj (hbody.symm.trans hbody2)
    subst hreq
    have hgs : gs2 = gs := Option.some.inj (hg2.symm.trans hg)
    subst hgs
    have hafter2 : after2 = after := by
      rw [hreg, Function.update_same] at hafter
      exact Option.some.inj hafter
    subst hafter2
    obtain ⟨f1, f2, _, _⟩ := afterMove_frame e gs2 req
    have hshape2 : (afterMove e gs2 req).2.Players.length = 3 ∧
        (afterMove e gs2 req).2.Results.length = 3 :=
      ⟨f1.trans hshape.1, by rw [f2]; exact hshape.2⟩
    obtain ⟨hpl, hrest⟩ := advanceTurn_frame _ _ out.1 after2 hshape2 hadv
    obtain ⟨⟨hand, hset⟩, hdealer⟩ := afterMove_players e gs2 req
    refine ⟨?_, ?_, ?_⟩
    · intro q hq
      rw [hpl, hset, List.getElem?_set_ne (Ne.symm hq)]
    · intro hsome
      rw [(hrest hsome).1, hdealer]
    · intro other hother
      rw [hreg, Function.update_noteq hother]

/-- C11 at `lastMoveGame`: player 2 hits and receives the first card of the deck. -/
theorem accepted_hit_moves_first_card_witness :
    lastMoveGame.Deck = ⟨"C", "2"⟩ :: [⟨"C", "3"⟩] ∧
    ∃ e2 after hand,
      handleAction zeroEntropy (oneRoom lastMoveGame) "/game/action/r1" (some ⟨2, "hit"⟩) =
        some (e2, Function.update (oneRoom lastMoveGame) "r1" (some after),
          .json (encode after)) ∧
      after.Players[2]? = some hand ∧
      hand.Cards = [⟨"D", "8"⟩, ⟨"C", "8"⟩] ++ [⟨"C", "2"⟩] :=
  ⟨rfl,
   let ⟨e2, after, hand, h1, _, _, _, h5, h6, _⟩ :=
     accepted_hit_moves_first_card zeroEntropy (oneRoom lastMoveGame) "/game/action/r1" "r1"
       ⟨2, "hit"⟩ lastMoveGame
       { Cards := [⟨"D", "8"⟩, ⟨"C", "8"⟩], Done := false, Busted := false }
       ⟨"C", "2"⟩ [⟨"C", "3"⟩] splitPath_action_r1_room (oneRoom_r1 _) ⟨rfl, rfl⟩ rfl
       (by decide) (by decide) rfl rfl rfl rfl rfl
   ⟨e2, after, hand, h1, h5, h6⟩⟩

/-- C12 at the stand of player 2 in `lastMoveGame`: players 0 and 1 are as before. -/
theorem accepted_action_spares_other_hands_witness :
    handleAction zeroEntropy (oneRoom lastMoveGame) "/game/action/r1" (some ⟨2, "stand"⟩) =
      some (zeroEntropy, Function.update (oneRoom lastMoveGame) "r1" (some finishedGame),
        .json (encode finishedGame)) ∧
    ∀ q : Nat, q ≠ 2 → finishedGame.Players[q]? = lastMoveGame.Players[q]? :=
  ⟨lastMove_stand,
   (accepted_action_spares_other_hands zeroEntropy (oneRoom lastMoveGame) "/game/action/r1"
      "r1" (some ⟨2, "stand"⟩) _ ⟨2, "stand"⟩ lastMoveGame finishedGame (encode finishedGame)
      splitPath_action_r1_room (oneRoom_r1 _) ⟨rfl, rfl⟩ rfl lastMove_stand rfl
      (by simp [Function.update_same])).1⟩

/-! ## The dealer loop -/

theorem hardPoints_rank_bounds (c : Card) (h : c.Value ∈ values) :
    1 ≤ hardPoints c ∧ hardPoints c ≤ 10 := by
  have key : ∀ v ∈ values, 1 ≤ (if v = "A" then (1 : Int)
      else if v = "K" ∨ v = "Q" ∨ v = "J" then 10 else sscanfInt v) ∧
      (if v = "A" then (1 : Int)
      else if v = "K" ∨ v = "Q" ∨ v = "J" then 10 else sscanfInt v) ≤ 10 := by decide
  exact key c.Value h

theorem hardTotal_rank_nonneg (cards : List Card) (h : ∀ c ∈ cards, c.Value ∈ values) :
    0 ≤ hardTotal cards := by
  induction cards with
  | nil => simp [hardTotal]
  | cons c cs ih =>
    rw [hardTotal_cons]
    have := (hardPoints_rank_bounds c (h c (List.mem_cons_self _ _))).1
    have := ih (fun x hx => h x (List.mem_cons_of_mem _ hx))
    omega

theorem newDeck_ranks (d : Draws) : ∀ c ∈ newDeck d, c.Value ∈ values := fun c hc =>
  ((mem_fullDeck c).mp ((newDeck_perm_fullDeck d).mem_iff.mp hc)).2

/-- The dealer loop as a number of draws: the loop is `n` draws in a row, the dealer
is below 17 before each of them and at 17 or more after the last; on rank cards each
draw adds at least one point to the hard total, which is below 17 at every draw. -/
theorem dealerLoop_draws (e : Entropy) (gs : GameState)
    (hdeck : ∀ c ∈ gs.Deck, c.Value ∈ values)
    (hdealer : ∀ c ∈ gs.Dealer.Cards, c.Value ∈ values) :
    ∃ n : Nat, (n = 0 ∨ (n : Int) + hardTotal gs.Dealer.Cards ≤ 17) ∧
      dealerLoop e gs = dealerDraws n e gs ∧
      (∀ k, k < n → (handValue (dealerDraws k e gs).2.Dealer).1 < 17) ∧
      17 ≤ (handValue (dealerDraws n e gs).2.Dealer).1 := by
  induction e, gs using dealerLoop.induct with
  | case1 e gs hlt ih =>
    obtain ⟨c, rest, hc, heq⟩ := dealCard_dealer_eq e gs
    have hsrc : ∀ x ∈ c :: rest, x.Value ∈ values := by
      rw [← hc]
      by_cases h0 : gs.Deck.length = 0
      · simp only [h0, if_true]; exact newDeck_ranks (e 0)
      · simp only [h0, if_false]; exact hdeck
    have hcr := hsrc c (List.mem_cons_self _ _)
    have hdeck2 : ∀ x ∈ (dealCard e gs .dealer).2.Deck, x.Value ∈ values := by
      rw [heq]; exact fun x hx => hsrc x (List.mem_cons_of_mem _ hx)
    have hdealer2 : ∀ x ∈ (dealCard e gs .dealer).2.Dealer.Cards, x.Value ∈ values := by
      rw [heq]
      intro x hx
      rcases List.mem_append.mp hx with hx | hx
      · exact hdealer x hx
      · rw [List.mem_singleton.mp hx]; exact hcr
    obtain ⟨n, hn, hloop, hbelow, hexit⟩ := ih hdeck2 hdealer2
    refine ⟨n + 1, Or.inr ?_, ?_, ?_, ?_⟩
    · have hh := hardTotal_le_handValue gs.Dealer
      have hp := (hardPoints_rank_bounds c hcr).1
      have hcards : hardTotal (dealCard e gs .dealer).2.Dealer.Cards
          = hardTotal gs.Dealer.Cards + hardPoints c := by
        rw [heq]; simp [hardTotal_append, hardTotal_cons, hardTotal]
      rw [hcards] at hn
      push_cast
      rcases hn with hn | hn
      · subst hn; omega
      · omega
    · rw [dealerLoop, if_pos hlt, hloop]; rfl
    · intro k hk
      cases k with
      | zero => exact hlt
      | succ k => exact hbelow k (by omega)
    · exact hexit
  | case2 e gs hge =>
    refine ⟨0, Or.inl rfl, ?_, ?_, ?_⟩
    · rw [dealerLoop, if_neg hge]; rfl
    · intro k hk; omega
    · exact not_lt.mp hge

/-- C13.  On a game whose deck and dealer hand hold only cards of the thirteen ranks,
and for every entropy stream (every shuffle made when the deck runs out), the dealer
loop halts: it is `n` draws in a row for some `n ≤ 17`, the dealer is below 17 before
each draw and holds at least 17 on exit.  A dealer who already holds at least 17 draws
no card; ace plus six counts 17. -/
theorem dealer_loop_halts (e : Entropy) (gs : GameState)
    (hdeck : ∀ c ∈ gs.Deck, c.Value ∈ values)
    (hdealer : ∀ c ∈ gs.Dealer.Cards, c.Value ∈ values) :
    (∃ n : Nat, n ≤ 17 ∧ dealerLoop e gs = dealerDraws n e gs ∧
      (∀ k, k < n → (handValue (dealerDraws k e gs).2.Dealer).1 < 17) ∧
      17 ≤ (handValue (dealerLoop e gs).2.Dealer).1) ∧
    (17 ≤ (handValue gs.Dealer).1 → dealerLoop e gs = (e, gs)) ∧
    (∀ (s1 s2 : String) (d b : Bool),
      (handValue { Cards := [⟨s1, "A"⟩, ⟨s2, "6"⟩], Done := d, Busted := b }).1 = 17) := by
  refine ⟨?_, ?_, ?_⟩
  · obtain ⟨n, hn, hloop, hbelow, hexit⟩ := dealerLoop_draws e gs hdeck hdealer
    refine ⟨n, ?_, hloop, hbelow, by rw [hloop]; exact hexit⟩
    have := hardTotal_rank_nonneg gs.Dealer.Cards hdealer
    rcases hn with hn | hn
    · omega
    · omega
  · intro h17
    exact dealerLoop_of_ge e gs (not_lt.mpr h17)
  · intro s1 s2 d b
    simp [handValue, addCard, demoteAces, sscanfInt, digitVal]

/-- C13 at a game whose dealer holds five and six and must draw. -/
theorem dealer_loop_halts_witness :
    (∀ c ∈ lastMoveGame.Deck, c.Value ∈ values) ∧
    (∀ c ∈ ([⟨"S", "5"⟩, ⟨"H", "6"⟩] : List Card), c.Value ∈ values) ∧
    ∃ n : Nat, n ≤ 17 ∧
      dealerLoop zeroEntropy
          { lastMoveGame with
            Dealer := { Cards := [⟨"S", "5"⟩, ⟨"H", "6"⟩], Done := false, Busted := false } }
        = dealerDraws n zeroEntropy
          { lastMoveGame with
            Dealer := { Cards := [⟨"S", "5"⟩, ⟨"H", "6"⟩], Done := false, Busted := false } } :=
  ⟨by decide, by decide,
   let ⟨n, h1, h2, _⟩ := (dealer_loop_halts zeroEntropy
      { lastMoveGame with
        Dealer := { Cards := [⟨"S", "5"⟩, ⟨"H", "6"⟩], Done := false, Busted := false } }
      (by decide) (by decide)).1
   ⟨n, h1, h2⟩⟩

/-! ## The state handler -/

theorem handleState_found (games : Registry) (path roomid : String) (gs : GameState)
    (hseg : (splitPath path)[3]? = some roomid) (hg : games roomid = some gs) :
    (handleState games path).2 = .json (encode gs) := by
  obtain ⟨hlen, hroom⟩ := splitPath_room_of path roomid hseg
  unfold handleState
  simp only [hlen, if_false, hroom, hg]

/-- C16.  `handleState` is read-only: it leaves the registry, hence every game, as it
found it; for a path with a room id it answers 404 when the room is unknown and
otherwise the projection of the stored game, which holds dealer, players, results, turn
and status and does not depend on the deck; so a second state request on the registry
the first one left gets the same response. -/
theorem handleState_is_read_only (games : Registry) (path : String) :
    (handleState games path).1 = games ∧
    (∀ roomid, (splitPath path)[3]? = some roomid → games roomid = none →
      (handleState games path).2 = .error 404 "Game not found") ∧
    (∀ roomid gs, (splitPath path)[3]? = some roomid → games roomid = some gs →
      (handleState games path).2 = .json (encode gs) ∧
      encode gs = { dealer := gs.Dealer, players := gs.Players, results := gs.Results,
                    turn := gs.Turn, status := gs.Status } ∧
      ∀ deck, encode { gs with Deck := deck } = encode gs) ∧
    (handleState (handleState games path).1 path).2 = (handleState games path).2 := by
  have hreg := handleState_registry games path
  refine ⟨hreg, ?_, ?_, by rw [hreg]⟩
  · intro roomid hseg hnone
    obtain ⟨hlen, hroom⟩ := splitPath_room_of path roomid hseg
    unfold handleState
    simp only [hlen, if_false, hroom, hnone]
  · intro roomid gs hseg hg
    obtain ⟨hlen, hroom⟩ := splitPath_room_of path roomid hseg
    exact ⟨handleState_found games path roomid gs hseg hg, rfl, fun _ => rfl⟩

/-- C16 at the room "r1" of `oneRoom lastMoveGame`. -/
theorem handleState_is_read_only_witness :
    (splitPath "/game/state/r1")[3]? = some "r1" ∧
    (handleState (oneRoom lastMoveGame) "/game/state/r1").2 = .json (encode lastMoveGame) ∧
    (handleState (oneRoom lastMoveGame) "/game/state/r1").1 = oneRoom lastMoveGame :=
  have hseg : (splitPath "/game/state/r1")[3]? = some "r1" := by decide
  ⟨hseg,
   ((handleState_is_read_only (oneRoom lastMoveGame) "/game/state/r1").2.2.1 "r1"
      lastMoveGame hseg (oneRoom_r1 _)).1,
   (handleState_is_read_only (oneRoom lastMoveGame) "/game/state/r1").1⟩

/-! ## The soft flag -/

theorem highTotal_eq (cards : List Card) (h : ∀ c ∈ cards, c.Value ∈ values) :
    highTotal cards = hardTotal cards + 10 * aceNumber cards := by
  induction cards with
  | nil => simp [highTotal, hardTotal, aceNumber]
  | cons c cs ih =>
    rw [highTotal, hardTotal_cons, aceNumber_cons,
      ih (fun x hx => h x (List.mem_cons_of_mem _ hx)),
      hardPoints_of_rank c (h c (List.mem_cons_self _ _))]
    by_cases hA : c.Value = "A"
    · simp only [hA, if_true]; push_cast; ring
    · simp only [hA, if_false]; push_cast; ring

/-- The loop of `demoteAces`, in terms of its number of iterations. -/
theorem demoteAces_demotions (val : Int) (n : Nat) (soft : Bool) :
    demotions val n ≤ n ∧
    (demoteAces val n soft).1 = val - 10 * demotions val n ∧
    (demoteAces val n soft).2 = (soft || decide (0 < demotions val n)) ∧
    (val - 10 * demotions val n ≤ 21 ∨ demotions val n = n) ∧
    (∀ m : Nat, m < demotions val n → 21 < val - 10 * m) := by
  induction n generalizing val soft with
  | zero => simp [demotions, demoteAces]
  | succ n ih =>
    unfold demotions demoteAces
    by_cases hgt : val > 21
    · rw [if_pos hgt, if_pos hgt]
      obtain ⟨h1, h2, h3, h4, h5⟩ := ih (val - 10) true
      refine ⟨by omega, ?_, ?_, ?_, ?_⟩
      · rw [h2]; push_cast; ring
      · rw [h3]; simp
      · rcases h4 with h4 | h4
        · left; push_cast; omega
        · right; omega
      · intro m hm
        cases m with
        | zero => simpa using hgt
        | succ m =>
          have := h5 m (by omega)
          push_cast; omega
    · rw [if_neg hgt, if_neg hgt]
      refine ⟨by omega, by simp, by simp, Or.inl (by simpa using hgt), ?_⟩
      intro m hm; omega

theorem aceNumber_pos_iff (cards : List Card) :
    0 < aceNumber cards ↔ ∃ c ∈ cards, c.Value = "A" := by
  unfold aceNumber
  rw [List.countP_pos_iff]
  simp

/-- C18.  For a hand of cards of the thirteen ranks, the soft flag of `handValue` is
true exactly when at least one ace is demoted, which is exactly when the hand holds an
ace and its total with every ace counted as 11 exceeds 21.  The total returned is that
total less ten for each demoted ace, and the number of demoted aces is the smallest
number that brings the total to 21 or below, or the number of aces when none does. -/
theorem soft_flag_iff_ace_demoted (hand : Hand) (hr : ∀ c ∈ hand.Cards, c.Value ∈ values) :
    ((handValue hand).2 = true ↔ 0 < demotedAces hand) ∧
    ((handValue hand).2 = true ↔
      ((∃ c ∈ hand.Cards, c.Value = "A") ∧ 21 < highTotal hand.Cards)) ∧
    (handValue hand).1 = highTotal hand.Cards - 10 * demotedAces hand ∧
    demotedAces hand ≤ aceNumber hand.Cards ∧
    ((∃ m : Nat, m ≤ aceNumber hand.Cards ∧ highTotal hand.Cards - 10 * m ≤ 21) →
      highTotal hand.Cards - 10 * demotedAces hand ≤ 21 ∧
      ∀ m : Nat, highTotal hand.Cards - 10 * m ≤ 21 → demotedAces hand ≤ m) ∧
    ((¬ ∃ m : Nat, m ≤ aceNumber hand.Cards ∧ highTotal hand.Cards - 10 * m ≤ 21) →
      demotedAces hand = aceNumber hand.Cards) := by
  have hhigh := highTotal_eq hand.Cards hr
  have hacc : hand.Cards.foldl addCard (0, 0)
      = (highTotal hand.Cards, aceNumber hand.Cards) := by
    rw [foldl_addCard, hhigh]; simp
  obtain ⟨h1, h2, h3, h4, h5⟩ :=
    demoteAces_demotions (highTotal hand.Cards) (aceNumber hand.Cards) false
  have hd : demotedAces hand = demotions (highTotal hand.Cards) (aceNumber hand.Cards) := by
    unfold demotedAces; rw [hacc]
  have hv : handValue hand
      = demoteAces (highTotal hand.Cards) (aceNumber hand.Cards) false := by
    unfold handValue; rw [hacc]
  rw [hv, hd]
  have hsoft : (demoteAces (highTotal hand.Cards) (aceNumber hand.Cards) false).2 = true ↔
      0 < demotions (highTotal hand.Cards) (aceNumber hand.Cards) := by
    rw [h3]; simp
  refine ⟨hsoft, ?_, h2, h1, ?_, ?_⟩
  · rw [hsoft, ← aceNumber_pos_iff]
    constructor
    · intro hpos
      refine ⟨by omega, ?_⟩
      have := h5 0 hpos
      simpa using this
    · rintro ⟨hace, hgt⟩
      by_contra hzero
      have h0 : demotions (highTotal hand.Cards) (aceNumber hand.Cards) = 0 := by omega
      rw [h0] at h4
      rcases h4 with h4 | h4
      · simp at h4; omega
      · omega
  · rintro ⟨m, hm, hle⟩
    constructor
    · rcases h4 with h4 | h4
      · exact h4
      · rw [h4]
        have : (m : Int) ≤ (aceNumber hand.Cards : Int) := by exact_mod_cast hm
        omega
    · intro m2 hm2
      by_contra hlt
      have := h5 m2 (by omega)
      omega
  · intro hnone
    rcases h4 with h4 | h4
    · exact absurd ⟨_, h1, h4⟩ hnone
    · exact h4

/-- C18 at the hand ace, ace, nine: the total with aces high is 31, one ace is demoted
and the soft flag is set. -/
theorem soft_flag_iff_ace_demoted_witness :
    (∀ c ∈ ([⟨"S", "A"⟩, ⟨"H", "A"⟩, ⟨"D", "9"⟩] : List Card), c.Value ∈ values) ∧
    ((handValue ⟨[⟨"S", "A"⟩, ⟨"H", "A"⟩, ⟨"D", "9"⟩], false, false⟩).2 = true ↔
      0 < demotedAces ⟨[⟨"S", "A"⟩, ⟨"H", "A"⟩, ⟨"D", "9"⟩], false, false⟩) ∧
    demotedAces ⟨[⟨"S", "A"⟩, ⟨"H", "A"⟩, ⟨"D", "9"⟩], false, false⟩ = 1 ∧
    (handValue ⟨[⟨"S", "A"⟩, ⟨"H", "A"⟩, ⟨"D", "9"⟩], false, false⟩).2 = true :=
  ⟨by decide,
   (soft_flag_iff_ace_demoted ⟨[⟨"S", "A"⟩, ⟨"H", "A"⟩, ⟨"D", "9"⟩], false, false⟩
      (by decide)).1,
   by decide, by decide⟩

/-! ## The busted flag -/

theorem mem_allCards_of_player (gs : GameState) (player : Hand) (c : Card)
    (hp : player ∈ gs.Players) (hc : c ∈ player.Cards) : c ∈ allCards gs := by
  unfold allCards
  refine List.mem_append_right _ ?_
  rw [List.mem_flatten]
  exact ⟨player.Cards, List.mem_map_of_mem _ hp, hc⟩

/-- C19.  In every game held by a reachable registry, each player has the busted flag
exactly when the total of the hand exceeds 21, and a busted player is done.  So a
player who holds the two cards of the deal, having never hit, is not busted; and the
label `gameResult` chooses from the busted flag is the label it would choose by
evaluating the hand again. -/
theorem busted_flag_iff_over_21 (games : Registry) (h : Reachable games)
    (roomid : String) (gs : GameState) (hg : games roomid = some gs) :
    ∀ player ∈ gs.Players,
      (player.Busted = true ↔ 21 < (handValue player).1) ∧
      (player.Busted = true → player.Done = true) ∧
      (player.Cards.length = 2 → player.Busted = false) ∧
      (player.Busted = isBusted player) ∧
      ∀ dVal : Int, resultLabel dVal player =
        (if isBusted player = true then "Bust"
         else if dVal > 21 ∨ (handValue player).1 > dVal then "Win"
         else if (handValue player).1 < dVal then "Lose"
         else "Push") := by
  intro player hp
  have inv := (reachable_inv games h roomid gs hg).cards
  have ok := inv.hands player hp
  have hflag : player.Busted = isBusted player := by
    unfold isBusted
    cases hb : player.Busted with
    | true => exact (decide_eq_true (ok.busted_iff.mp hb)).symm
    | false =>
      have : ¬ 21 < (handValue player).1 := fun hlt => by
        have := ok.busted_iff.mpr hlt
        rw [hb] at this; exact absurd this (by simp)
      exact (decide_eq_false this).symm
  refine ⟨ok.busted_iff, ok.busted_done, ?_, hflag, ?_⟩
  · intro hlen
    match hcards : player.Cards, hlen with
    | [a, b], _ =>
      have ha : a ∈ fullDeck := inv.perm.mem_iff.mp
        (mem_allCards_of_player gs player a hp (by rw [hcards]; simp))
      have hb : b ∈ fullDeck := inv.perm.mem_iff.mp
        (mem_allCards_of_player gs player b hp (by rw [hcards]; simp))
      have h1 := (hardPoints_bounds a ha).2
      have h2 := (hardPoints_bounds b hb).2
      have hh : hardTotal player.Cards ≤ 21 := by
        rw [hcards]
        simp only [hardTotal, List.map_cons, List.map_nil, List.sum_cons, List.sum_nil]
        omega
      have hv := handValue_le_of_hard_le player hh
      cases hB : player.Busted with
      | false => rfl
      | true =>
        have := ok.busted_iff.mp hB
        omega
  · intro dVal
    unfold resultLabel
    simp only [← hflag]

/-- C19 at the game of room "r1" right after its start. -/
theorem busted_flag_iff_over_21_witness :
    Reachable startedRegistry ∧
    startedRegistry "r1" = some (startGame zeroEntropy "r1").2 ∧
    ∀ player ∈ (startGame zeroEntropy "r1").2.Players,
      (player.Busted = true ↔ 21 < (handValue player).1) :=
  ⟨startedRegistry_reachable, startedRegistry_r1, fun player hp =>
    (busted_flag_iff_over_21 startedRegistry startedRegistry_reachable "r1" _
      startedRegistry_r1 player hp).1⟩

/-! ## The deck never runs out -/

/-- In a game that satisfies the invariant, the dealer loop is a number of draws, each
from a non-empty deck, and the entropy stream is never used. -/
theorem dealerLoop_no_refill (e : Entropy) (gs : GameState) (inv : CardsInv gs) :
    ∃ n : Nat, dealerLoop e gs = dealerDraws n e gs ∧
      ∀ k, k < n → (dealerDraws k e gs).2.Deck ≠ [] ∧
        (handValue (dealerDraws k e gs).2.Dealer).1 < 17 ∧ (dealerDraws k e gs).1 = e := by
  induction e, gs using dealerLoop.induct with
  | case1 e gs hlt ih =>
    obtain ⟨c, rest, hd, heq, hinv⟩ := dealer_draw e gs inv hlt
    obtain ⟨n, hloop, hall⟩ := ih hinv
    refine ⟨n + 1, ?_, ?_⟩
    · rw [dealerLoop, if_pos hlt, hloop]; rfl
    · intro k hk
      cases k with
      | zero => exact ⟨by rw [dealerDraws, hd]; simp, hlt, rfl⟩
      | succ k =>
        obtain ⟨h1, h2, h3⟩ := hall k (by omega)
        refine ⟨h1, h2, ?_⟩
        rw [dealerDraws, h3, heq]
  | case2 e gs hge =>
    refine ⟨0, ?_, fun k hk => by omega⟩
    rw [dealerLoop, if_neg hge]; rfl

/-- C20.  In a game held by a reachable registry, take any request that is accepted
(a playing game, a player who is not done, "hit" or "stand").  If it is a hit, the deck
is not empty when `dealCard` is called for the player.  The dealer loop that may follow
is a number of draws, and the deck is not empty at any of them.  So the branch of
`dealCard` that makes a new deck is not taken: the entropy stream comes back unused,
and the game after the action still holds each of the 52 cards exactly once. -/
theorem deck_never_runs_out (games : Registry) (h : Reachable games) (e : Entropy)
    (roomid : String) (gs : GameState) (req : ActionRequest) (player : Hand)
    (hg : games roomid = some gs) (hplay : gs.Status = "playing")
    (hp : gs.Players[req.Player.toNat]? = some player) (hd : player.Done = false) :
    (req.Action = "hit" → gs.Deck ≠ [] ∧ (dealCard e gs (.player req.Player.toNat)).1 = e) ∧
    (∃ n : Nat,
      dealerLoop (afterMove e gs req).1 (afterMove e gs req).2
        = dealerDraws n (afterMove e gs req).1 (afterMove e gs req).2 ∧
      ∀ k, k < n →
        (dealerDraws k (afterMove e gs req).1 (afterMove e gs req).2).2.Deck ≠ [] ∧
        (dealerDraws k (afterMove e gs req).1 (afterMove e gs req).2).1 = e) ∧
    (∃ after, advanceTurn (afterMove e gs req).1 (afterMove e gs req).2 = some (e, after) ∧
      (allCards after).Perm fullDeck ∧ (allCards after).Nodup) := by
  have inv := (reachable_inv games h roomid gs hg).cards
  obtain ⟨hme, hminv, hmst⟩ := afterMove_inv e gs req player inv hp hd
  refine ⟨?_, ?_, ?_⟩
  · intro _
    obtain ⟨c, rest, hdeck, _⟩ := deck_nonempty gs inv.players_len inv.perm
      (fun x hx => (inv.hands x hx).hard_le) inv.dealer_hard
    refine ⟨by rw [hdeck]; simp, ?_⟩
    rw [dealCard_of_cons e gs _ c rest hdeck]
  · obtain ⟨n, hloop, hall⟩ := dealerLoop_no_refill (afterMove e gs req).1
      (afterMove e gs req).2 hminv
    refine ⟨n, hloop, fun k hk => ?_⟩
    obtain ⟨h1, _, h3⟩ := hall k hk
    exact ⟨h1, h3.trans hme⟩
  · obtain ⟨s, hs, hse, hgi⟩ := advanceTurn_inv (afterMove e gs req).1 _ hminv
      (hmst.trans hplay)
    refine ⟨s.2, ?_, hgi.cards.perm, hgi.cards.perm.nodup_iff.mpr fullDeck_nodup⟩
    rw [hs, ← hme, ← hse]

/-- C20 at the first hit of player 0 in the game of room "r1" right after its start. -/
theorem deck_never_runs_out_witness :
    Reachable startedRegistry ∧
    startedRegistry "r1" = some (startGame zeroEntropy "r1").2 ∧
    (startGame zeroEntropy "r1").2.Deck ≠ [] :=
  have hfirst : ∃ player, (startGame zeroEntropy "r1").2.Players[0]? = some player ∧
      player.Done = false ∧ (startGame zeroEntropy "r1").2.Status = "playing" := by
    obtain ⟨c0, c1, c2, c3, c4, c5, c6, c7, rest, _, _, heq⟩ := startGame_eq zeroEntropy "r1"
    rw [heq]
    exact ⟨_, rfl, rfl, rfl⟩
  let ⟨player, hp, hd, hplay⟩ := hfirst
  ⟨startedRegistry_reachable, startedRegistry_r1,
   ((deck_never_runs_out startedRegistry startedRegistry_reachable zeroEntropy "r1" _
      ⟨0, "hit"⟩ player startedRegistry_r1 hplay hp hd).1 rfl).1⟩

/-! ## Paths without a room id -/

theorem splitPath_three (path : String) (h : (splitPath path).length < 4) (e : Entropy)
    (games : Registry) (body : Option ActionRequest) :
    handleStart e games path = (e, games, .error 400 "Missing gameroomid") ∧
    handleState games path = (games, .error 400 "Missing gameroomid") ∧
    handleAction e games path body = some (e, games, .error 400 "Missing gameroomid") := by
  refine ⟨?_, ?_, ?_⟩
  · simp [handleStart, h]
  · simp [handleState, h]
  · simp [handleAction, h]

/-- C14, evaluated.  A path that stops before the room id, such as "/game/start", has
three segments and gets the 400 of the guard `len(seg) < 4` from all three handlers,
with the registry untouched.  A path that ends with the slash has a fourth, empty
segment, and the guard lets it through: "/game/start/" creates a game for the room id
"" and answers with its JSON, "/game/state/" on a registry without that room answers
404, and "/game/action/" acts on the game stored under "". -/
theorem empty_room_id_passes_the_guard :
    (∀ (e : Entropy) (games : Registry) (body : Option ActionRequest),
      handleStart e games "/game/start" = (e, games, .error 400 "Missing gameroomid") ∧
      handleState games "/game/state" = (games, .error 400 "Missing gameroomid") ∧
      handleAction e games "/game/action" body
        = some (e, games, .error 400 "Missing gameroomid")) ∧
    splitPath "/game/start/" = ["", "game", "start", ""] ∧
    (∀ (e : Entropy) (games : Registry),
      (handleStart e games "/game/start/").2.2 = .json (encode (startGame e "").2) ∧
      (handleStart e games "/game/start/").2.1 "" = some (startGame e "").2) ∧
    (handleState (fun _ => none) "/game/state/").2 = .error 404 "Game not found" ∧
    (∀ gs : GameState, (handleState (fun r => if r = "" then some gs else none)
      "/game/state/").2 = .json (encode gs)) ∧
    (∃ e2 after, handleAction zeroEntropy (fun r => if r = "" then some lastMoveGame else none)
        "/game/action/" (some ⟨2, "stand"⟩)
      = some (e2, Function.update (fun r => if r = "" then some lastMoveGame else none) ""
          (some after), .json (encode after)) ∧ after ≠ lastMoveGame) := by
  have h1 : splitPath "/game/start" = ["", "game", "start"] := by decide
  have h2 : splitPath "/game/state" = ["", "game", "state"] := by decide
  have h3 : splitPath "/game/action" = ["", "game", "action"] := by decide
  have h4 : splitPath "/game/start/" = ["", "game", "start", ""] := by decide
  have h5 : splitPath "/game/state/" = ["", "game", "state", ""] := by decide
  have h6 : splitPath "/game/action/" = ["", "game", "action", ""] := by decide
  refine ⟨?_, h4, ?_, ?_, ?_, ?_⟩
  · intro e games body
    exact ⟨(splitPath_three _ (by rw [h1]; decide) e games body).1,
      (splitPath_three _ (by rw [h2]; decide) e games body).2.1,
      (splitPath_three _ (by rw [h3]; decide) e games body).2.2⟩
  · intro e games
    simp [handleStart, h4]
  · simp [handleState, h5]
  · intro gs
    simp [handleState, h5]
  · have hseg : (splitPath "/game/action/")[3]? = some "" := by rw [h6]; rfl
    have hacc := handleAction_accept zeroEntropy
      (fun r => if r = "" then some lastMoveGame else none) "/game/action/" ""
      ⟨2, "stand"⟩ lastMoveGame
      { Cards := [⟨"D", "8"⟩, ⟨"C", "8"⟩], Done := false, Busted := false }
      hseg (by simp) rfl (by decide) (by decide) rfl rfl (Or.inr rfl)
    obtain ⟨f1, f2, _, _⟩ := afterMove_frame zeroEntropy lastMoveGame ⟨2, "stand"⟩
    obtain ⟨e2, after, hadv, hpl, _⟩ := advanceTurn_some
      (afterMove zeroEntropy lastMoveGame ⟨2, "stand"⟩).1
      (afterMove zeroEntropy lastMoveGame ⟨2, "stand"⟩).2
      ⟨f1.trans rfl, by rw [f2]; rfl⟩
    refine ⟨e2, after, ?_, ?_⟩
    · rw [hacc, hadv]; rfl
    · intro heq
      rw [heq] at hpl
      have hm : (afterMove zeroEntropy lastMoveGame ⟨2, "stand"⟩).2 = markDone lastMoveGame 2 := by
        simp [afterMove]
      rw [hm] at hpl
      revert hpl
      decide

/-! ## The errors of the action handler -/

/-- C15, counterexample.  A hit of player 0 on a room without a game and the same hit
on a room whose game is finished get the same response, status 400 with the message
"Game not found or not in playing state": a missing game and a game that is not playing
are not told apart. -/
theorem missing_game_and_finished_game_same_response :
    (fun _ => none : Registry) "r1" = none ∧
    oneRoom finishedGame "r1" = some finishedGame ∧ finishedGame.Status ≠ "playing" ∧
    handleAction zeroEntropy (fun _ => none) "/game/action/r1" (some ⟨0, "hit"⟩)
      = some (zeroEntropy, fun _ => none,
          .error 400 "Game not found or not in playing state") ∧
    handleAction zeroEntropy (oneRoom finishedGame) "/game/action/r1" (some ⟨0, "hit"⟩)
      = some (zeroEntropy, oneRoom finishedGame,
          .error 400 "Game not found or not in playing state") := by
  refine ⟨rfl, oneRoom_r1 _, by decide, ?_, ?_⟩
  · simp [handleAction, splitPath_action_r1]
  · have hg : oneRoom finishedGame "r1" = some finishedGame := oneRoom_r1 _
    have hs : finishedGame.Status ≠ "playing" := by decide
    simp [handleAction, splitPath_action_r1, hg, hs]

/-- C15, amended.  For a path with the room id `roomid`, `handleAction` checks in this
order and answers the first failure with status 400 and its message: the game is
missing or is not playing (one message for both), the body is malformed, the player
index is out of range, the player is already done, the action is neither "hit" nor
"stand".  The five messages are pairwise different. -/
theorem action_errors_in_order (e : Entropy) (games : Registry) (path roomid : String)
    (body : Option ActionRequest) (hseg : (splitPath path)[3]? = some roomid) :
    (games roomid = none →
      handleAction e games path body
        = some (e, games, .error 400 "Game not found or not in playing state")) ∧
    (∀ gs, games roomid = some gs → gs.Status ≠ "playing" →
      handleAction e games path body
        = some (e, games, .error 400 "Game not found or not in playing state")) ∧
    (∀ gs, games roomid = some gs → gs.Status = "playing" → body = none →
      handleAction e games path body = some (e, games, .error 400 "Invalid input")) ∧
    (∀ gs req, games roomid = some gs → gs.Status = "playing" → body = some req →
      (req.Player < 0 ∨ 2 < req.Player) →
      handleAction e games path body = some (e, games, .error 400 "Invalid player")) ∧
    (∀ gs req player, games roomid = some gs → gs.Status = "playing" → body = some req →
      0 ≤ req.Player → req.Player ≤ 2 → gs.Players[req.Player.toNat]? = some player →
      player.Done = true →
      handleAction e games path body
        = some (e, games, .error 400 "Player already finished")) ∧
    (∀ gs req player, games roomid = some gs → gs.Status = "playing" → body = some req →
      0 ≤ req.Player → req.Player ≤ 2 → gs.Players[req.Player.toNat]? = some player →
      player.Done = false → req.Action ≠ "hit" → req.Action ≠ "stand" →
      handleAction e games path body = some (e, games, .error 400 "Unknown action")) ∧
    ["Game not found or not in playing state", "Invalid input", "Invalid player",
      "Player already finished", "Unknown action"].Nodup := by
  obtain ⟨hlen, hroom⟩ := splitPath_room_of path roomid hseg
  refine ⟨?_, ?_, ?_, ?_, ?_, ?_, by decide⟩
  · intro hg
    unfold handleAction
    simp only [hlen, if_false, hroom, hg]
  · intro gs hg hs
    unfold handleAction
    simp only [hlen, if_false, hroom, hg, ne_eq, hs, not_false_eq_true, if_true]
  · intro gs hg hs hbody
    unfold handleAction
    simp only [hlen, if_false, hroom, hg, hs, ne_eq, not_true_eq_false, hbody]
  · intro gs req hg hs hbody hrange
    have hr : req.Player < 0 ∨ req.Player > 2 := hrange
    unfold handleAction
    simp only [hlen, if_false, hroom, hg, hs, ne_eq, not_true_eq_false, hbody, hr, if_true]
  · intro gs req player hg hs hbody h0 h2 hp hd
    have hr : ¬ (req.Player < 0 ∨ req.Player > 2) := by omega
    unfold handleAction
    simp only [hlen, if_false, hroom, hg, hs, ne_eq, not_true_eq_false, hbody, hr, hp, hd,
      if_true]
  · intro gs req player hg hs hbody h0 h2 hp hd hhit hstand
    have hr : ¬ (req.Player < 0 ∨ req.Player > 2) := by omega
    unfold handleAction
    simp only [hlen, if_false, hroom, hg, hs, ne_eq, not_true_eq_false, hbody, hr, hp, hd,
      hhit, hstand, Bool.false_eq_true]

/-- C15, amended, at `lastMoveGame`: a stand of player 0, who is done, is answered with
"Player already finished". -/
theorem action_errors_in_order_witness :
    (splitPath "/game/action/r1")[3]? = some "r1" ∧
    handleAction zeroEntropy (oneRoom lastMoveGame) "/game/action/r1" (some ⟨0, "stand"⟩)
      = some (zeroEntropy, oneRoom lastMoveGame, .error 400 "Player already finished") :=
  ⟨splitPath_action_r1_room,
   (action_errors_in_order zeroEntropy (oneRoom lastMoveGame) "/game/action/r1" "r1"
      (some ⟨0, "stand"⟩) splitPath_action_r1_room).2.2.2.2.1 lastMoveGame ⟨0, "stand"⟩ _
      (oneRoom_r1 _) rfl rfl (by decide) (by decide) rfl rfl⟩

/-! ## The lock and the response -/

/-- The guards of the step model are the guards of `handleAction`. -/
theorem handleAction_eq_checks (e : Entropy) (games : Registry) (path roomid : String)
    (body : Option ActionRequest) (hseg : (splitPath path)[3]? = some roomid) :
    handleAction e games path body =
      match actionChecks games roomid body with
      | none => none
      | some (.error msg) => some (e, games, .error 400 msg)
      | some (.ok req) =>
        match games roomid with
        | none => none
        | some gs =>
          respond games roomid (advanceTurn (afterMove e gs req).1 (afterMove e gs req).2) := by
  obtain ⟨hlen, hroom⟩ := splitPath_room_of path roomid hseg
  unfold handleAction actionChecks
  simp only [hlen, if_false, hroom]
  cases hg : games roomid with
  | none => rfl
  | some gs =>
    simp only
    by_cases hs : gs.Status = "playing"
    · simp only [hs, ne_eq, not_true_eq_false, if_false]
      cases body with
      | none => rfl
      | some req =>
        simp only
        by_cases hr : req.Player < 0 ∨ req.Player > 2
        · simp only [hr, if_true]
        · simp only [hr, if_false]
          cases hp : gs.Players[req.Player.toNat]? with
          | none => rfl
          | some player =>
            simp only
            by_cases hd : player.Done = true
            · simp only [hd, if_true]
            · have hd2 : player.Done = false := by simpa using hd
              simp only [hd2, Bool.false_eq_true, if_false]
              by_cases hhit : req.Action = "hit"
              · simp [hhit, afterMove]
              · by_cases hstand : req.Action = "stand"
                · have : ¬ ("stand" = "hit") := by decide
                  simp [hstand, afterMove]
                · simp [hhit, hstand]
    · simp only [ne_eq, hs, not_false_eq_true, if_true]

/-- The step model run alone is `handleAction`: an action request that meets no other
request ends, after at most six steps, with the lock released, the registry and the
response of `handleAction`. -/
theorem actionRun_alone (e : Entropy) (games : Registry) (path roomid : String)
    (body : Option ActionRequest) (out : Entropy × Registry × Response)
    (hseg : (splitPath path)[3]? = some roomid)
    (hact : handleAction e games path body = some out) :
    ∃ final, actionRun e roomid body 6 (.start, { locked := false, games := games })
        = (.done out.2.2, final) ∧
      final.locked = false ∧ ∀ r, final.games r = out.2.1 r := by
  rw [handleAction_eq_checks e games path roomid body hseg] at hact
  cases hc : actionChecks games roomid body with
  | none => rw [hc] at hact; exact absurd hact (by simp)
  | some res =>
    cases res with
    | error msg =>
      rw [hc] at hact
      simp only [Option.some.injEq] at hact
      subst hact
      refine ⟨{ locked := false, games := games }, ?_, rfl, fun _ => rfl⟩
      simp [actionRun, actionStep, hc]
    | ok req =>
      rw [hc] at hact
      simp only at hact
      cases hg : games roomid with
      | none => rw [hg] at hact; exact absurd hact (by simp)
      | some gs =>
        rw [hg] at hact
        simp only at hact
        obtain ⟨after, hadv, hreg, hresp⟩ := respond_eq_some _ _ _ _ hact
        refine ⟨{ locked := false,
                  games := Function.update
                    (Function.update games roomid (some (afterMove e gs req).2)) roomid
                    (some after) }, ?_, rfl, ?_⟩
        · simp [actionRun, actionStep, hc, hg, hadv, hresp]
        · intro r
          rw [hreg]
          by_cases hr : r = roomid
          · subst hr; simp
          · simp [Function.update_noteq hr]

/-- The state request run alone on `oneRoom lastMoveGame` answers with the game as
stored. -/
theorem state_before_action :
    (handleState (oneRoom lastMoveGame) "/game/state/r1").2 = .json (encode lastMoveGame) := by
  exact handleState_found _ _ "r1" _ (by decide) (oneRoom_r1 _)

/-- The state request run after the stand of player 2 answers with the finished game. -/
theorem state_after_action :
    (handleState (Function.update (oneRoom lastMoveGame) "r1" (some finishedGame))
      "/game/state/r1").2 = .json (encode finishedGame) := by
  exact handleState_found _ _ "r1" _ (by decide) (Function.update_same _ _ _)

/-- C17, evaluated.  On `oneRoom lastMoveGame`, a state request for "r1" and the stand
of player 2 on "r1" are interleaved as follows: the state request locks, looks the game
up and unlocks; the action request locks, passes its guards and marks player 2 done;
the state request then encodes the game.  At that moment the action request holds the
lock and has not yet advanced the turn: the response shows all three players done with
status "playing" and turn 2, which is neither the game before the action nor the game
after it, the only two responses the state request can get when the requests are
handled one after the other. -/
theorem state_request_reads_game_during_action :
    ∃ final : TwoRequests,
      runSchedule zeroEntropy "r1" (some ⟨2, "stand"⟩)
        [.stateRequest, .stateRequest, .stateRequest,
         .actionRequest, .actionRequest, .actionRequest, .stateRequest]
        { shared := { locked := false, games := oneRoom lastMoveGame },
          statePc := .start, actionPc := .start } = some final ∧
      final.shared.locked = true ∧
      final.statePc = .done (.json (encode (markDone lastMoveGame 2))) ∧
      (∀ player ∈ (encode (markDone lastMoveGame 2)).players, player.Done = true) ∧
      (encode (markDone lastMoveGame 2)).status = "playing" ∧
      (encode (markDone lastMoveGame 2)).turn = 2 ∧
      encode (markDone lastMoveGame 2) ≠ encode lastMoveGame ∧
      encode (markDone lastMoveGame 2) ≠ encode finishedGame ∧
      (handleState (oneRoom lastMoveGame) "/game/state/r1").2 = .json (encode lastMoveGame) ∧
      (handleState (Function.update (oneRoom lastMoveGame) "r1" (some finishedGame))
        "/game/state/r1").2 = .json (encode finishedGame) := by
  have hchk : actionChecks (oneRoom lastMoveGame) "r1" (some ⟨2, "stand"⟩)
      = some (.ok ⟨2, "stand"⟩) := by
    simp [actionChecks, oneRoom_r1, lastMoveGame]
  have hm : afterMove zeroEntropy lastMoveGame ⟨2, "stand"⟩
      = (zeroEntropy, markDone lastMoveGame 2) := by simp [afterMove]
  refine ⟨{ shared := { locked := true,
                        games := Function.update (oneRoom lastMoveGame) "r1"
                          (some (markDone lastMoveGame 2)) },
            statePc := .done (.json (encode (markDone lastMoveGame 2))),
            actionPc := .moved zeroEntropy }, ?_, rfl, rfl, by decide, by decide, by decide,
          by decide, by decide, state_before_action, state_after_action⟩
  simp [runSchedule, stateStep, actionStep, hchk, hm, oneRoom_r1]

end Blackjack
